import Mathlib

/-!
Verification development for the move-search core of a chess engine
(file `src/search.cc`).  The search object and its methods are shallowly
embedded: the mutable members of the `Search` class become an explicit
state record (`SState`), the immutable members computed by the constructor
become `SearchConfig`, and the external collaborators (board, move
generator, evaluator, transposition-table keying, move ordering, clock)
are gathered in an `Env` parameter.  Recursive searches are written with
loop combinators parameterised by the recursive call so that recursion is
structural (on depth for `negaMax`, on explicit fuel for `qSearch`, which
in the C++ recurses on capture chains).
-/

/-- A move: from/to squares plus the flags the search inspects.
The C++ `Move` carries a flag bitmask; the search reads only the
`CAPTURE` and `NULL_MOVE` bits, modelled as two booleans. -/
structure Move where
  fromSq : Nat
  toSq : Nat
  isCapture : Bool
  isNull : Bool
deriving DecidableEq, Repr

/-- A default-constructed `Move()` carries the `NULL_MOVE` flag. -/
def Move.null : Move := { fromSq := 0, toSq := 0, isCapture := false, isNull := true }

/-- Transposition-table bound kinds (`TranspTableEntry::Flag`). -/
inductive TTFlag where
  | EXACT
  | LOWER_BOUND
  | UPPER_BOUND
deriving DecidableEq, Repr

/-- A transposition-table entry: `{score, depth searched, bound kind, best move}`. -/
structure TTEntry where
  score : Int
  depth : Nat
  flag : TTFlag
  bestMove : Move
deriving DecidableEq, Repr

/-- Modelled from the spec: the move-ordering collaborator `OrderingInfo`
(its implementation is outside `src/search.cc`).  It exposes a ply counter,
a ply-indexed killer-move slot and a (side, from, to) history weight table. -/
structure OrderingInfo where
  ply : Int
  killers : Int → List Move
  history : Bool → Nat → Nat → Nat

/-- Modelled from the spec: `OrderingInfo::incrementPly`. -/
def OrderingInfo.incrementPly (oi : OrderingInfo) : OrderingInfo :=
  { oi with ply := oi.ply + 1 }

/-- Modelled from the spec: `OrderingInfo::deincrementPly`. -/
def OrderingInfo.deincrementPly (oi : OrderingInfo) : OrderingInfo :=
  { oi with ply := oi.ply - 1 }

/-- Modelled from the spec: `OrderingInfo::getPly`. -/
def OrderingInfo.getPly (oi : OrderingInfo) : Int := oi.ply

/-- Modelled from the spec: `OrderingInfo::updateKillers` stores the move in
the killer slot of the given ply (keeping the most recent two). -/
def OrderingInfo.updateKillers (oi : OrderingInfo) (p : Int) (m : Move) : OrderingInfo :=
  { oi with killers := fun q => if q = p then m :: (oi.killers p).take 1 else oi.killers q }

/-- Modelled from the spec: `OrderingInfo::incrementHistory` strengthens the
history weight of (side, from, to) by an amount that grows with depth. -/
def OrderingInfo.incrementHistory (oi : OrderingInfo) (side : Bool) (f t : Nat) (depth : Nat) :
    OrderingInfo :=
  { oi with history := fun s a b =>
      if s = side ∧ a = f ∧ b = t then oi.history s a b + depth * depth else oi.history s a b }

/-- The `Limits` configuration handed to the search constructor. -/
structure Limits where
  depth : Nat
  time : Bool → Int
  increment : Bool → Int
  movesToGo : Int
  nodes : Nat
  infinite : Bool

/-- The external collaborators of the search, plus the engine constants from
`defs.h` (which is outside `src/`); all are parameters of the embedding.
`inCheck b` stands for `b.colorIsInCheck(b.getActivePlayer())`, `eval b` for
`Eval(b, b.getActivePlayer()).getScore()`, `orderMoves`/`orderCaptures` for
the emission order of `GeneralMovePicker`/`CaptureMovePicker`, and `clock i`
for the elapsed milliseconds reported by the i-th wall-clock query. -/
structure Env (Board : Type) where
  legalMoves : Board → List Move
  doMove : Board → Move → Board
  inCheck : Board → Bool
  activePlayer : Board → Bool
  eval : Board → Int
  zKey : Board → Nat
  orderMoves : OrderingInfo → Board → List Move → List Move
  orderCaptures : List Move → List Move
  clock : Nat → Int
  INF : Int
  MAX_SEARCH_DEPTH : Nat
  DEFAULT_SEARCH_DEPTH : Nat
  SUDDEN_DEATH_MOVESTOGO : Int

/-- The immutable part of the `Search` object: the limits, the root board,
the reporting flag, and the two values the constructor derives from them. -/
structure SearchConfig (Board : Type) where
  limits : Limits
  board : Board
  logUci : Bool
  searchDepth : Int
  timeAllocated : Int

/-- The mutable members of the `Search` object, threaded through the search:
transposition table, ordering info, stop flag, poll counter, node counter,
committed best move/score, and the number of wall-clock queries made so far
(`tick`, which drives the `clock` stream of the environment). -/
structure SState where
  tt : Nat → Option TTEntry
  orderingInfo : OrderingInfo
  stop : Bool
  limitCheckCount : Int
  nodes : Nat
  bestMove : Move
  bestScore : Int
  tick : Nat

/-- `TranspTable::set`: insert or replace the entry for a key. -/
def ttSet (tt : Nat → Option TTEntry) (k : Nat) (e : TTEntry) : Nat → Option TTEntry :=
  fun q => if q = k then some e else tt q

/-- The search constructor `Search::Search` (lines 15-42): resolves the
limits into the iteration ceiling `searchDepth` and the `timeAllocated`
budget. -/
def searchInit {Board : Type} (E : Env Board) (b : Board) (limits : Limits) (logUci : Bool) :
    SearchConfig Board :=
  if limits.infinite then
    { limits := limits, board := b, logUci := logUci,
      searchDepth := E.INF, timeAllocated := E.INF }
  else if limits.depth ≠ 0 then
    { limits := limits, board := b, logUci := logUci,
      searchDepth := (limits.depth : Int), timeAllocated := E.INF }
  else if limits.time (E.activePlayer b) ≠ 0 then
    { limits := limits, board := b, logUci := logUci,
      searchDepth := (E.MAX_SEARCH_DEPTH : Int),
      timeAllocated :=
        if limits.movesToGo = 0 then
          (limits.time (E.activePlayer b) + limits.increment (E.activePlayer b)).tdiv
            E.SUDDEN_DEATH_MOVESTOGO
        else
          (limits.time (E.activePlayer b) + limits.increment (E.activePlayer b)).tdiv
            limits.movesToGo }
  else
    { limits := limits, board := b, logUci := logUci,
      searchDepth := (E.DEFAULT_SEARCH_DEPTH : Int), timeAllocated := E.INF }

/-- The state of a freshly constructed `Search` object: empty table, zeroed
ordering info, stop flag clear, poll counter 0, best score 0, and a
default-constructed (null) best move. -/
def initState : SState :=
  { tt := fun _ => none,
    orderingInfo := { ply := 0, killers := fun _ => [], history := fun _ _ _ => 0 },
    stop := false, limitCheckCount := 0, nodes := 0,
    bestMove := Move.null, bestScore := 0, tick := 0 }

/-- `Search::_checkLimits` (lines 119-132): decrement the poll counter and
answer `false` on the fast path; every 4096th call do the real check of the
node cap and the allocated time (one wall-clock query). -/
def checkLimits {Board : Type} (E : Env Board) (cfg : SearchConfig Board) (st : SState) :
    Bool × SState :=
  if 0 < st.limitCheckCount - 1 then
    (false, { st with limitCheckCount := st.limitCheckCount - 1 })
  else
    let elapsed := E.clock st.tick
    let st2 : SState := { st with limitCheckCount := 4096, tick := st.tick + 1 }
    if cfg.limits.nodes ≠ 0 ∧ cfg.limits.nodes ≤ st.nodes then (true, st2)
    else if cfg.timeAllocated ≤ elapsed then (true, st2)
    else (false, st2)

/-- The capture loop of `Search::_qSearch` (lines 333-348), parameterised by
the recursive call: apply each capture, recurse with negated and swapped
bounds, return `beta` on a cutoff, raise `alpha` otherwise. -/
def qLoop {Board : Type} (qrec : SState → Board → Int → Int → Int × SState) (E : Env Board)
    (b : Board) : List Move → SState → Int → Int → Int × SState
  | [], st, alpha, _ => (alpha, st)
  | m :: ms, st, alpha, beta =>
    let r := qrec st (E.doMove b m) (-beta) (-alpha)
    if beta ≤ -r.1 then (beta, r.2)
    else if alpha < -r.1 then qLoop qrec E b ms r.2 (-r.1) beta
    else qLoop qrec E b ms r.2 alpha beta

/-- The body of `Search::_qSearch` after the limit check (lines 304-349):
terminal check, stand-pat evaluation and node count, quiet-position return,
stand-pat cutoff, alpha raise, then the capture loop. -/
def qSearchMain {Board : Type} (qrec : SState → Board → Int → Int → Int × SState)
    (E : Env Board) (st : SState) (b : Board) (alpha beta : Int) : Int × SState :=
  if (E.legalMoves b).isEmpty then
    (if E.inCheck b then -E.INF else 0, st)
  else
    let standPat := E.eval b
    let st2 : SState := { st with nodes := st.nodes + 1 }
    if (E.orderCaptures (E.legalMoves b)).isEmpty then (standPat, st2)
    else if beta ≤ standPat then (beta, st2)
    else
      qLoop qrec E b (E.orderCaptures (E.legalMoves b)) st2
        (if alpha < standPat then standPat else alpha) beta

/-- `Search::_qSearch` (lines 297-350).  The C++ recursion descends along
capture chains; the embedding carries explicit fuel for it (a real run never
exhausts the fuel, and every theorem below either quantifies over the fuel or
assumes one unfolding of it). -/
def qSearch {Board : Type} (E : Env Board) (cfg : SearchConfig Board) :
    Nat → SState → Board → Int → Int → Int × SState
  | 0, st, _, _, _ => (0, st)
  | fuel + 1, st, b, alpha, beta =>
    if st.stop then (0, { st with stop := true })
    else if (checkLimits E cfg st).1 then (0, { (checkLimits E cfg st).2 with stop := true })
    else qSearchMain (qSearch E cfg fuel) E ((checkLimits E cfg st).2) b alpha beta

/-- The move loop and epilogue of `Search::_negaMax` (lines 241-294),
parameterised by the recursive call at depth `d - 1`.  On a beta cutoff it
records the killer, strengthens the history of a quiet move (keyed on the
active player of the root board `cfg.board`, as in line 260), stores a
LOWER_BOUND entry and returns `beta`.  After the loop it falls back to the
first legal move if no move raised alpha, stores an UPPER_BOUND or EXACT
entry and returns `alpha`. -/
def negaLoop {Board : Type} (recurse : SState → Board → Int → Int → Int × SState)
    (E : Env Board) (cfg : SearchConfig Board) (b : Board) (d : Nat) (legal : List Move)
    (alphaOrig : Int) : List Move → SState → Int → Int → Move → Int × SState
  | [], st, alpha, _, bm =>
    let bm2 := if bm.isNull then legal.headD Move.null else bm
    let fl := if alpha ≤ alphaOrig then TTFlag.UPPER_BOUND else TTFlag.EXACT
    let e : TTEntry := { score := alpha, depth := d, flag := fl, bestMove := bm2 }
    (alpha, { st with tt := ttSet st.tt (E.zKey b) e })
  | m :: ms, st, alpha, beta, bm =>
    let r := recurse ({ st with orderingInfo := st.orderingInfo.incrementPly })
      (E.doMove b m) (-beta) (-alpha)
    let st3 : SState := { r.2 with orderingInfo := r.2.orderingInfo.deincrementPly }
    if beta ≤ -r.1 then
      let oi1 := st3.orderingInfo.updateKillers st3.orderingInfo.getPly m
      let oi2 := if m.isCapture then oi1
        else oi1.incrementHistory (E.activePlayer cfg.board) m.fromSq m.toSq d
      let e : TTEntry := { score := -r.1, depth := d, flag := TTFlag.LOWER_BOUND, bestMove := m }
      (beta, { st3 with orderingInfo := oi2, tt := ttSet st3.tt (E.zKey b) e })
    else if alpha < -r.1 then negaLoop recurse E cfg b d legal alphaOrig ms st3 (-r.1) beta m
    else negaLoop recurse E cfg b d legal alphaOrig ms st3 alpha beta bm

/-- The part of `Search::_negaMax` after the cache probe (lines 227-294):
terminal check, quiescence delegation at depth 0, otherwise the move loop on
the `GeneralMovePicker` order.  `alphaOrig` is the alpha captured on entry
(line 205), used for the final bound kind. -/
def negaMaxMain {Board : Type} (recurse : SState → Board → Int → Int → Int × SState)
    (E : Env Board) (cfg : SearchConfig Board) (fuel d : Nat) (st : SState) (b : Board)
    (alphaOrig alpha beta : Int) : Int × SState :=
  if (E.legalMoves b).isEmpty then
    (if E.inCheck b then -E.INF else 0, st)
  else if d = 0 then qSearch E cfg fuel st b alpha beta
  else
    negaLoop recurse E cfg b d (E.legalMoves b) alphaOrig
      (E.orderMoves st.orderingInfo b (E.legalMoves b)) st alpha beta Move.null

/-- The transposition-cache probe of `Search::_negaMax` (lines 205-224):
an entry with stored depth at least the requested depth returns its score
directly when EXACT, otherwise tightens the window by its bound kind, and
returns the stored score if the tightened window is empty; shallower entries
are ignored. -/
def negaMaxProbe {Board : Type} (recurse : SState → Board → Int → Int → Int × SState)
    (E : Env Board) (cfg : SearchConfig Board) (fuel d : Nat) (st : SState) (b : Board)
    (alpha beta : Int) : Int × SState :=
  match st.tt (E.zKey b) with
  | none => negaMaxMain recurse E cfg fuel d st b alpha alpha beta
  | some e =>
    if d ≤ e.depth then
      match e.flag with
      | TTFlag.EXACT => (e.score, st)
      | TTFlag.UPPER_BOUND =>
        if min beta e.score ≤ alpha then (e.score, st)
        else negaMaxMain recurse E cfg fuel d st b alpha alpha (min beta e.score)
      | TTFlag.LOWER_BOUND =>
        if beta ≤ max alpha e.score then (e.score, st)
        else negaMaxMain recurse E cfg fuel d st b alpha (max alpha e.score) beta
    else negaMaxMain recurse E cfg fuel d st b alpha alpha beta

/-- The entry of `Search::_negaMax` (lines 198-203): cancellation check with
the untrusted sentinel 0, then the cache probe and the rest. -/
def negaMaxEntry {Board : Type} (recurse : SState → Board → Int → Int → Int × SState)
    (E : Env Board) (cfg : SearchConfig Board) (fuel d : Nat) (st : SState) (b : Board)
    (alpha beta : Int) : Int × SState :=
  if st.stop then (0, { st with stop := true })
  else if (checkLimits E cfg st).1 then (0, { (checkLimits E cfg st).2 with stop := true })
  else negaMaxProbe recurse E cfg fuel d ((checkLimits E cfg st).2) b alpha beta

/-- `Search::_negaMax` (lines 198-295), by structural recursion on the
remaining depth; at depth 0 the recursive call is never used (the move loop
only runs at positive depth). -/
def negaMax {Board : Type} (E : Env Board) (cfg : SearchConfig Board) (fuel : Nat) :
    Nat → SState → Board → Int → Int → Int × SState
  | 0, st, b, alpha, beta =>
    negaMaxEntry (fun s _ _ _ => (0, s)) E cfg fuel 0 st b alpha beta
  | d + 1, st, b, alpha, beta =>
    negaMaxEntry (negaMax E cfg fuel d) E cfg fuel (d + 1) st b alpha beta

/-- The function used for the recursive subcalls of `negaMax` at depth `d`:
the subcall at depth `d - 1` when `d` is positive (at depth 0 the loop never
runs, so the placeholder is never invoked). -/
def negaPrev {Board : Type} (E : Env Board) (cfg : SearchConfig Board) (fuel : Nat) :
    Nat → SState → Board → Int → Int → Int × SState
  | 0 => fun s _ _ _ => (0, s)
  | d + 1 => negaMax E cfg fuel d

/-- The move loop of `Search::_rootMax` (lines 155-179), parameterised by the
recursive call: recurse with negated and swapped bounds in the full window,
abort (setting the stop flag) when cancellation is detected after a subcall,
track the best move, and short-circuit on a forced mate. -/
def rootLoop {Board : Type} (recurse : SState → Board → Int → Int → Int × SState)
    (E : Env Board) (cfg : SearchConfig Board) (b : Board) (beta : Int) :
    List Move → SState → Int → Move → Int × Move × SState
  | [], st, alpha, bm => (alpha, bm, st)
  | m :: ms, st, alpha, bm =>
    let r := recurse ({ st with orderingInfo := st.orderingInfo.incrementPly })
      (E.doMove b m) (-beta) (-alpha)
    let st3 : SState := { r.2 with orderingInfo := r.2.orderingInfo.deincrementPly }
    if st3.stop then (alpha, bm, { st3 with stop := true })
    else if (checkLimits E cfg st3).1 then (alpha, bm, { (checkLimits E cfg st3).2 with stop := true })
    else if alpha < -r.1 then
      if -r.1 = E.INF then (-r.1, m, (checkLimits E cfg st3).2)
      else rootLoop recurse E cfg b beta ms ((checkLimits E cfg st3).2) (-r.1) m
    else rootLoop recurse E cfg b beta ms ((checkLimits E cfg st3).2) alpha bm

/-- `Search::_rootMax` (lines 134-196): reset the node counter, commit the
null answer on a terminal root, otherwise run the move loop in the full
window, fall back to the first legal move if no move raised alpha, and,
unless the search was stopped, store the root EXACT entry and commit the
best move and score. -/
def rootMax {Board : Type} (E : Env Board) (cfg : SearchConfig Board) (fuel depth : Nat)
    (st : SState) (b : Board) : SState :=
  if (E.legalMoves b).isEmpty then
    { st with nodes := 0, bestMove := Move.null, bestScore := -E.INF }
  else
    let r := rootLoop (negaMax E cfg fuel (depth - 1)) E cfg b E.INF
      (E.orderMoves st.orderingInfo b (E.legalMoves b)) ({ st with nodes := 0 })
      (-E.INF) Move.null
    let bm := if r.2.1.isNull then (E.legalMoves b).headD Move.null else r.2.1
    if r.2.2.stop then r.2.2
    else
      let e : TTEntry := { score := r.1, depth := depth, flag := TTFlag.EXACT, bestMove := bm }
      { r.2.2 with tt := ttSet r.2.2.tt (E.zKey b) e, bestMove := bm, bestScore := r.1 }

/-- `Search::_getPv` (lines 66-78): follow stored best moves through the
cache from the given position, up to the given length. -/
def getPv {Board : Type} (E : Env Board) (st : SState) : Board → Nat → List Move
  | _, 0 => []
  | b, n + 1 =>
    match st.tt (E.zKey b) with
    | none => []
    | some e => e.bestMove :: getPv E st (E.doMove b e.bestMove) n

/-- The score field of a progress line: either a mate distance or a
centipawn value. -/
inductive ScoreStr where
  | mate (n : Int)
  | cp (n : Int)
deriving DecidableEq, Repr

/-- One progress line of `Search::_logUciInfo` (lines 80-105). -/
structure Report where
  depth : Nat
  nodes : Nat
  score : ScoreStr
  nps : Int
  time : Int
  pv : List Move
deriving DecidableEq, Repr

/-- `Search::_logUciInfo` (lines 80-105): derive the mate display from the
principal-variation length, and bias elapsed time by one to avoid a division
by zero in the nodes-per-second rate. -/
def mkReport {Board : Type} (E : Env Board) (st : SState) (b : Board) (depth : Nat)
    (elapsed : Int) : Report :=
  let pv := getPv E st b depth
  let sc := if st.bestScore = E.INF then ScoreStr.mate (pv.length : Int)
    else if st.bestScore = -E.INF then ScoreStr.mate (-(pv.length : Int))
    else ScoreStr.cp st.bestScore
  { depth := depth, nodes := st.nodes, score := sc,
    nps := ((st.nodes : Int) * 1000).tdiv (elapsed + 1), time := elapsed + 1, pv := pv }

/-- The iterative-deepening loop of `Search::iterDeep` (lines 47-61): run the
root search at each depth, measure elapsed time, abandon the iteration
without a progress line if the stop flag is set, otherwise log (when
reporting is on) and stop once elapsed time reaches half the budget. -/
def iterLoop {Board : Type} (E : Env Board) (cfg : SearchConfig Board) (fuel : Nat) :
    Nat → Nat → SState → List Report → SState × List Report
  | 0, _, st, log => (st, log)
  | rem + 1, currDepth, st, log =>
    let st1 := rootMax E cfg fuel currDepth st cfg.board
    let elapsed := E.clock st1.tick
    let st2 : SState := { st1 with tick := st1.tick + 1 }
    if st2.stop then (st2, log)
    else
      let log2 := if cfg.logUci then log ++ [mkReport E st2 cfg.board currDepth elapsed] else log
      if cfg.timeAllocated.tdiv 2 ≤ elapsed then (st2, log2)
      else iterLoop E cfg fuel rem (currDepth + 1) st2 log2

/-- `Search::iterDeep` (lines 44-64): iterate depths from 1 up to the
resolved ceiling, producing the final state and the progress lines. -/
def iterDeep {Board : Type} (E : Env Board) (cfg : SearchConfig Board) (fuel : Nat)
    (st : SState) : SState × List Report :=
  iterLoop E cfg fuel cfg.searchDepth.toNat 1 st []

/-- `Search::getBestMove` (lines 111-113). -/
def getBestMove (st : SState) : Move := st.bestMove

/-- `Search::getBestScore` (lines 115-117). -/
def getBestScore (st : SState) : Int := st.bestScore

/-- One search step between positions: `c` follows `b` when some move,
applied with `doMove`, turns `b` into `c`. -/
def StepRel {Board : Type} (E : Env Board) (b c : Board) : Prop :=
  ∃ m, c = E.doMove b m

/-- A position reachable from `b` by a (possibly empty) chain of moves. -/
def Reach {Board : Type} (E : Env Board) : Board → Board → Prop :=
  Relation.ReflTransGen (StepRel E)

/-- A non-capture, non-null move from square `b` to square `b + 1`,
used by the concrete line-game environments below. -/
def mvL (b : Nat) : Move := { fromSq := b, toSq := b + 1, isCapture := false, isNull := false }

/-- A concrete environment whose every position is terminal and quiet
(a stalemate), over a one-point board type. -/
def EnvA : Env Unit :=
  { legalMoves := fun _ => [], doMove := fun b _ => b, inCheck := fun _ => false,
    activePlayer := fun _ => true, eval := fun _ => 0, zKey := fun _ => 0,
    orderMoves := fun _ _ ms => ms, orderCaptures := fun ms => ms.filter (fun m => m.isCapture),
    clock := fun _ => 0, INF := 1000000, MAX_SEARCH_DEPTH := 64,
    DEFAULT_SEARCH_DEPTH := 1, SUDDEN_DEATH_MOVESTOGO := 10 }

/-- A concrete environment whose every position is terminal with the mover
in check (a checkmate). -/
def EnvB : Env Unit :=
  { EnvA with inCheck := fun _ => true }

/-- A concrete line game on `Nat` positions: position `b` has the single
quiet move `mvL b` while `b < 4`, moves advance the position by one, sides
alternate with parity, and position 2 evaluates to -10 for its mover. -/
def EnvLine : Env Nat :=
  { legalMoves := fun b => if b < 4 then [mvL b] else [],
    doMove := fun b _ => b + 1, inCheck := fun _ => false,
    activePlayer := fun b => b % 2 = 0, eval := fun b => if b = 2 then -10 else 0,
    zKey := fun b => b,
    orderMoves := fun _ _ ms => ms, orderCaptures := fun ms => ms.filter (fun m => m.isCapture),
    clock := fun _ => 0, INF := 1000000, MAX_SEARCH_DEPTH := 64,
    DEFAULT_SEARCH_DEPTH := 1, SUDDEN_DEATH_MOVESTOGO := 10 }

/-- The line game with a clock already past any budget, to exercise the
cancellation paths. -/
def EnvStop : Env Nat :=
  { EnvLine with clock := fun _ => 100 }

/-- A capture at square `b`: a capturing, non-null move from `b` to `b + 1`. -/
def mvC (b : Nat) : Move := { fromSq := b, toSq := b + 1, isCapture := true, isNull := false }

/-- A concrete game with a single capture available at position 0 and
terminal quiet positions elsewhere. -/
def EnvCap : Env Nat :=
  { EnvLine with
    legalMoves := fun b => if b = 0 then [mvC 0] else [],
    eval := fun _ => 1 }

/-- Limits requesting a plain fixed-depth search of depth 1. -/
def limits0 : Limits :=
  { depth := 1, time := fun _ => 0, increment := fun _ => 0, movesToGo := 0,
    nodes := 0, infinite := false }

/-- Limits requesting depth 2 with a node cap of 1. -/
def limitsN : Limits :=
  { limits0 with depth := 2, nodes := 1 }

/-- Limits for a timed search: no depth, 1000 ms remaining, 1000 ms
increment, 2 moves to go. -/
def limitsT : Limits :=
  { depth := 0, time := fun _ => 1000, increment := fun _ => 1000, movesToGo := 2,
    nodes := 0, infinite := false }

/-- A config over the line game: depth-1 search from root 0. -/
def cfgLine : SearchConfig Nat := searchInit EnvLine 0 limits0 false

/-- A config over the line game: depth-2 search from root 0 with node cap 1. -/
def cfgN : SearchConfig Nat := searchInit EnvLine 0 limitsN false

/-- A config over the line game with an exhausted time budget of 50 ms
(the `EnvStop` clock always reads 100 ms). -/
def cfgStop : SearchConfig Nat :=
  { limits := limits0, board := 0, logUci := false, searchDepth := 5, timeAllocated := 50 }

/-- A config over the one-point boards. -/
def cfgA : SearchConfig Unit := searchInit EnvA () limits0 false

/-- A search state far from its next hard limit poll. -/
def stRun : SState := { initState with limitCheckCount := 1000 }

/-- A search state holding one transposition-table entry under key 0. -/
def stWith (e : TTEntry) : SState :=
  { initState with limitCheckCount := 1000, tt := fun k => if k = 0 then some e else none }

/-- A transposition table is null-free when every stored entry carries a
non-null best move. -/
def ttOkay (tt : Nat → Option TTEntry) : Prop :=
  ∀ k e, tt k = some e → e.bestMove.isNull = false

/-- The node-budget invariant for a node cap of `cap`: the node counter
never exceeds the cap by more than one polling interval (4096), and while
the search is not stopped the remaining poll allowance bounds how far the
counter may still grow. -/
def Jinv (cap : Nat) (st : SState) : Prop :=
  st.nodes ≤ cap + 4096 ∧
  (st.stop = false → (st.nodes : Int) + st.limitCheckCount ≤ (cap : Int) + 4096) ∧
  0 ≤ st.limitCheckCount ∧ st.limitCheckCount ≤ 4096

/-! ## Basic unfolding lemmas -/

theorem negaMax_eq {Board : Type} (E : Env Board) (cfg : SearchConfig Board) (fuel d : Nat)
    (st : SState) (b : Board) (alpha beta : Int) :
    negaMax E cfg fuel d st b alpha beta
      = negaMaxEntry (negaPrev E cfg fuel d) E cfg fuel d st b alpha beta := by
  cases d <;> rfl

theorem checkLimits_fast {Board : Type} (E : Env Board) (cfg : SearchConfig Board) (st : SState)
    (h : 2 ≤ st.limitCheckCount) :
    checkLimits E cfg st = (false, { st with limitCheckCount := st.limitCheckCount - 1 }) := by
  unfold checkLimits
  rw [if_pos (by omega : (0 : Int) < st.limitCheckCount - 1)]

theorem checkLimits_frame {Board : Type} (E : Env Board) (cfg : SearchConfig Board) (st : SState) :
    ((checkLimits E cfg st).2).tt = st.tt ∧
    ((checkLimits E cfg st).2).orderingInfo = st.orderingInfo ∧
    ((checkLimits E cfg st).2).stop = st.stop ∧
    ((checkLimits E cfg st).2).nodes = st.nodes ∧
    ((checkLimits E cfg st).2).bestMove = st.bestMove ∧
    ((checkLimits E cfg st).2).bestScore = st.bestScore := by
  simp only [checkLimits]
  repeat' split
  all_goals exact ⟨rfl, rfl, rfl, rfl, rfl, rfl⟩

/-! ## Claim theorems: constructor and cache probe -/

/-- Claim C6 (amended): for limits that are neither infinite nor fixed-depth
but have a nonzero remaining time for the side to move, the constructor sets
the iteration ceiling to `MAX_SEARCH_DEPTH` and allocates (remaining time
plus the side's increment) divided by moves-to-go, or divided by the
sudden-death constant when moves-to-go is zero. -/
theorem claim_C6 {Board : Type} (E : Env Board) (b : Board) (L : Limits) (lu : Bool)
    (h1 : L.infinite = false) (h2 : L.depth = 0) (h3 : L.time (E.activePlayer b) ≠ 0) :
    (searchInit E b L lu).searchDepth = (E.MAX_SEARCH_DEPTH : Int) ∧
    (searchInit E b L lu).timeAllocated =
      (if L.movesToGo = 0 then
        (L.time (E.activePlayer b) + L.increment (E.activePlayer b)).tdiv E.SUDDEN_DEATH_MOVESTOGO
      else
        (L.time (E.activePlayer b) + L.increment (E.activePlayer b)).tdiv L.movesToGo) := by
  unfold searchInit
  rw [h1, h2]
  rw [if_neg (by simp)]
  rw [if_neg (by simp)]
  rw [if_pos h3]
  exact ⟨rfl, rfl⟩

/-- Claim C6 witness: the timed-limit configuration `limitsT` (1000 ms
remaining, 1000 ms increment, 2 moves to go) resolves to the depth ceiling
and the divided budget. -/
theorem claim_C6_wit :
    (searchInit EnvA () limitsT false).searchDepth = (EnvA.MAX_SEARCH_DEPTH : Int) ∧
    (searchInit EnvA () limitsT false).timeAllocated =
      (if limitsT.movesToGo = 0 then
        (limitsT.time (EnvA.activePlayer ()) + limitsT.increment (EnvA.activePlayer ())).tdiv
          EnvA.SUDDEN_DEATH_MOVESTOGO
      else
        (limitsT.time (EnvA.activePlayer ()) + limitsT.increment (EnvA.activePlayer ())).tdiv
          limitsT.movesToGo) :=
  claim_C6 EnvA () limitsT false rfl rfl (by decide)

/-- Claim C6 counterexample: with 1000 ms remaining, a 1000 ms increment and
2 moves to go, the allocated budget is 1000 ms (the increment is added to the
numerator), not remaining-time divided by moves-to-go, which is 500 ms. -/
theorem claim_C6_cex :
    (searchInit EnvA () limitsT false).timeAllocated ≠
      (limitsT.time (EnvA.activePlayer ())).tdiv limitsT.movesToGo := by
  decide

/-- Claim C1: in `negaMax`, a cache entry with stored depth at least the
requested depth is used exactly as follows: an EXACT entry's score is
returned directly; a LOWER_BOUND entry raises alpha to the maximum of alpha
and the stored score; an UPPER_BOUND entry lowers beta to the minimum of
beta and the stored score; if the tightened window is empty the stored score
itself is returned; and an entry with stored depth below the requested depth
leaves the window untouched. -/
theorem claim_C1 {Board : Type} (E : Env Board) (cfg : SearchConfig Board) (fuel d : Nat)
    (st : SState) (b : Board) (alpha beta : Int) (e : TTEntry)
    (hs : st.stop = false) (hc : 2 ≤ st.limitCheckCount)
    (he : st.tt (E.zKey b) = some e) :
    (d ≤ e.depth → e.flag = TTFlag.EXACT →
      negaMax E cfg fuel d st b alpha beta
        = (e.score, { st with limitCheckCount := st.limitCheckCount - 1 })) ∧
    (d ≤ e.depth → e.flag = TTFlag.LOWER_BOUND → beta ≤ max alpha e.score →
      negaMax E cfg fuel d st b alpha beta
        = (e.score, { st with limitCheckCount := st.limitCheckCount - 1 })) ∧
    (d ≤ e.depth → e.flag = TTFlag.LOWER_BOUND → max alpha e.score < beta →
      negaMax E cfg fuel d st b alpha beta
        = negaMaxMain (negaPrev E cfg fuel d) E cfg fuel d
            { st with limitCheckCount := st.limitCheckCount - 1 } b alpha
            (max alpha e.score) beta) ∧
    (d ≤ e.depth → e.flag = TTFlag.UPPER_BOUND → min beta e.score ≤ alpha →
      negaMax E cfg fuel d st b alpha beta
        = (e.score, { st with limitCheckCount := st.limitCheckCount - 1 })) ∧
    (d ≤ e.depth → e.flag = TTFlag.UPPER_BOUND → alpha < min beta e.score →
      negaMax E cfg fuel d st b alpha beta
        = negaMaxMain (negaPrev E cfg fuel d) E cfg fuel d
            { st with limitCheckCount := st.limitCheckCount - 1 } b alpha
            alpha (min beta e.score)) ∧
    (e.depth < d →
      negaMax E cfg fuel d st b alpha beta
        = negaMaxMain (negaPrev E cfg fuel d) E cfg fuel d
            { st with limitCheckCount := st.limitCheckCount - 1 } b alpha
            alpha beta) := by
  have base : negaMax E cfg fuel d st b alpha beta
      = negaMaxProbe (negaPrev E cfg fuel d) E cfg fuel d
          { st with limitCheckCount := st.limitCheckCount - 1 } b alpha beta := by
    rw [negaMax_eq]
    unfold negaMaxEntry
    rw [checkLimits_fast E cfg st hc, hs]
    simp only [Bool.false_eq_true, if_false]
  have htt : ({ st with limitCheckCount := st.limitCheckCount - 1 } : SState).tt (E.zKey b)
      = some e := he
  refine ⟨?_, ?_, ?_, ?_, ?_, ?_⟩
  · intro h1 h2
    rw [base]
    unfold negaMaxProbe
    rw [htt]
    simp only [if_pos h1, h2]
  · intro h1 h2 h3
    rw [base]
    unfold negaMaxProbe
    rw [htt]
    simp only [if_pos h1, h2, if_pos h3]
  · intro h1 h2 h3
    rw [base]
    unfold negaMaxProbe
    rw [htt]
    simp only [if_pos h1, h2, if_neg (not_le.mpr h3)]
  · intro h1 h2 h3
    rw [base]
    unfold negaMaxProbe
    rw [htt]
    simp only [if_pos h1, h2, if_pos h3]
  · intro h1 h2 h3
    rw [base]
    unfold negaMaxProbe
    rw [htt]
    simp only [if_pos h1, h2, if_neg (not_le.mpr h3)]
  · intro h1
    rw [base]
    unfold negaMaxProbe
    rw [htt]
    simp only [if_neg (not_le.mpr h1)]

/-- Claim C1 witness: concrete probes of each bound kind, including the two
empty-window cutoffs, which return the stored score 8 rather than the bound
that closed the window. -/
theorem claim_C1_wit :
    (negaMax EnvA cfgA 5 2 (stWith ⟨7, 3, TTFlag.EXACT, mvL 0⟩) () 0 10).1 = 7 ∧
    (negaMax EnvA cfgA 5 2 (stWith ⟨8, 3, TTFlag.LOWER_BOUND, mvL 0⟩) () 0 5).1 = 8 ∧
    (negaMax EnvA cfgA 5 2 (stWith ⟨8, 3, TTFlag.UPPER_BOUND, mvL 0⟩) () 9 20).1 = 8 := by
  refine ⟨?_, ?_, ?_⟩
  · exact congrArg Prod.fst
      ((claim_C1 EnvA cfgA 5 2 (stWith ⟨7, 3, TTFlag.EXACT, mvL 0⟩) () 0 10
        ⟨7, 3, TTFlag.EXACT, mvL 0⟩ rfl (by decide) rfl).1 (by decide) rfl)
  · exact congrArg Prod.fst
      ((claim_C1 EnvA cfgA 5 2 (stWith ⟨8, 3, TTFlag.LOWER_BOUND, mvL 0⟩) () 0 5
        ⟨8, 3, TTFlag.LOWER_BOUND, mvL 0⟩ rfl (by decide) rfl).2.1 (by decide) rfl (by decide))
  · exact congrArg Prod.fst
      ((claim_C1 EnvA cfgA 5 2 (stWith ⟨8, 3, TTFlag.UPPER_BOUND, mvL 0⟩) () 9 20
        ⟨8, 3, TTFlag.UPPER_BOUND, mvL 0⟩ rfl (by decide) rfl).2.2.2.1 (by decide) rfl (by decide))

/-- Claim C3: on a terminal position (no legal moves) both `negaMax` (when
no cancellation fires at entry and no cache entry covers the position) and
`qSearch` return the negated mate sentinel if the mover is in check and
exactly 0 otherwise, for every remaining depth and every window. -/
theorem claim_C3 {Board : Type} (E : Env Board) (cfg : SearchConfig Board) (fuel d : Nat)
    (st : SState) (b : Board) (alpha beta : Int)
    (hs : st.stop = false) (hc : 2 ≤ st.limitCheckCount)
    (hleg : E.legalMoves b = []) :
    (st.tt (E.zKey b) = none →
      (negaMax E cfg fuel d st b alpha beta).1 = (if E.inCheck b then -E.INF else 0)) ∧
    (qSearch E cfg (fuel + 1) st b alpha beta).1 = (if E.inCheck b then -E.INF else 0) := by
  constructor
  · intro htt
    rw [negaMax_eq]
    unfold negaMaxEntry
    rw [checkLimits_fast E cfg st hc, hs]
    simp only [Bool.false_eq_true, if_false]
    unfold negaMaxProbe
    rw [show ({ st with limitCheckCount := st.limitCheckCount - 1 } : SState).tt (E.zKey b)
      = none from htt]
    unfold negaMaxMain
    rw [hleg]
    simp
  · unfold qSearch
    rw [checkLimits_fast E cfg st hc, hs]
    simp only [Bool.false_eq_true, if_false]
    unfold qSearchMain
    rw [hleg]
    simp

/-- Claim C3 witness: a terminal in-check position scores the negated mate
sentinel in `negaMax`; a terminal quiet position scores 0 in `qSearch`;
depth 3 and windows (-4, 9) and (1, 2) are irrelevant. -/
theorem claim_C3_wit :
    (negaMax EnvB cfgA 5 3 stRun () (-4) 9).1 = -1000000 ∧
    (qSearch EnvA cfgA 4 stRun () 1 2).1 = 0 := by
  constructor
  · exact (claim_C3 EnvB cfgA 5 3 stRun () (-4) 9 rfl (by decide) rfl).1 rfl
  · exact (claim_C3 EnvA cfgA 3 0 stRun () 1 2 rfl (by decide) rfl).2

/-! ## Frame lemmas: fields each component never writes -/

theorem ply_incrementPly (oi : OrderingInfo) : oi.incrementPly.ply = oi.ply + 1 := rfl

theorem ply_deincrementPly (oi : OrderingInfo) : oi.deincrementPly.ply = oi.ply - 1 := rfl

theorem ply_updateKillers (oi : OrderingInfo) (p : Int) (m : Move) :
    (oi.updateKillers p m).ply = oi.ply := rfl

theorem ply_incrementHistory (oi : OrderingInfo) (s : Bool) (f t d : Nat) :
    (oi.incrementHistory s f t d).ply = oi.ply := rfl

theorem qLoop_frame {Board : Type} (qrec : SState → Board → Int → Int → Int × SState)
    (E : Env Board) (b : Board)
    (H : ∀ s c a bt, ((qrec s c a bt).2).tt = s.tt ∧
      ((qrec s c a bt).2).orderingInfo = s.orderingInfo ∧
      ((qrec s c a bt).2).bestMove = s.bestMove ∧
      ((qrec s c a bt).2).bestScore = s.bestScore) :
    ∀ ms st alpha beta, ((qLoop qrec E b ms st alpha beta).2).tt = st.tt ∧
      ((qLoop qrec E b ms st alpha beta).2).orderingInfo = st.orderingInfo ∧
      ((qLoop qrec E b ms st alpha beta).2).bestMove = st.bestMove ∧
      ((qLoop qrec E b ms st alpha beta).2).bestScore = st.bestScore := by
  intro ms
  induction ms with
  | nil => intro st alpha beta; exact ⟨rfl, rfl, rfl, rfl⟩
  | cons m ms ih =>
    intro st alpha beta
    have hr := H st (E.doMove b m) (-beta) (-alpha)
    simp only [qLoop]
    generalize hq : qrec st (E.doMove b m) (-beta) (-alpha) = r at hr
    obtain ⟨h1, h2, h3, h4⟩ := hr
    split
    · exact ⟨h1, h2, h3, h4⟩
    · split
      · obtain ⟨g1, g2, g3, g4⟩ := ih r.2 (-r.1) beta
        exact ⟨g1.trans h1, g2.trans h2, g3.trans h3, g4.trans h4⟩
      · obtain ⟨g1, g2, g3, g4⟩ := ih r.2 alpha beta
        exact ⟨g1.trans h1, g2.trans h2, g3.trans h3, g4.trans h4⟩

theorem qSearch_frame {Board : Type} (E : Env Board) (cfg : SearchConfig Board) :
    ∀ fuel st b alpha beta, ((qSearch E cfg fuel st b alpha beta).2).tt = st.tt ∧
      ((qSearch E cfg fuel st b alpha beta).2).orderingInfo = st.orderingInfo ∧
      ((qSearch E cfg fuel st b alpha beta).2).bestMove = st.bestMove ∧
      ((qSearch E cfg fuel st b alpha beta).2).bestScore = st.bestScore := by
  intro fuel
  induction fuel with
  | zero => intro st b alpha beta; exact ⟨rfl, rfl, rfl, rfl⟩
  | succ fuel ih =>
    intro st b alpha beta
    obtain ⟨c1, c2, c3, c4, c5, c6⟩ := checkLimits_frame E cfg st
    simp only [qSearch]
    split
    · exact ⟨rfl, rfl, rfl, rfl⟩
    · split
      · exact ⟨c1, c2, c5, c6⟩
      · simp only [qSearchMain]
        split
        · exact ⟨c1, c2, c5, c6⟩
        · split
          · exact ⟨c1, c2, c5, c6⟩
          · split
            · exact ⟨c1, c2, c5, c6⟩
            · obtain ⟨g1, g2, g3, g4⟩ := qLoop_frame (qSearch E cfg fuel) E b ih
                (E.orderCaptures (E.legalMoves b))
                ({ (checkLimits E cfg st).2 with nodes := (checkLimits E cfg st).2.nodes + 1 })
                (if alpha < E.eval b then E.eval b else alpha) beta
              exact ⟨g1.trans c1, g2.trans c2, g3.trans c5, g4.trans c6⟩

/-! ## Ply balance -/

theorem negaLoop_ply {Board : Type} (recurse : SState → Board → Int → Int → Int × SState)
    (E : Env Board) (cfg : SearchConfig Board) (b : Board) (d : Nat) (legal : List Move)
    (alphaOrig : Int)
    (H : ∀ s c a bt, ((recurse s c a bt).2).orderingInfo.ply = s.orderingInfo.ply) :
    ∀ ms st alpha beta bm,
      ((negaLoop recurse E cfg b d legal alphaOrig ms st alpha beta bm).2).orderingInfo.ply
        = st.orderingInfo.ply := by
  intro ms
  induction ms with
  | nil => intro st alpha beta bm; rfl
  | cons m ms ih =>
    intro st alpha beta bm
    have hr := H ({ st with orderingInfo := st.orderingInfo.incrementPly }) (E.doMove b m)
      (-beta) (-alpha)
    simp only [negaLoop]
    generalize hq : recurse ({ st with orderingInfo := st.orderingInfo.incrementPly })
      (E.doMove b m) (-beta) (-alpha) = r at hr
    simp only [ply_incrementPly] at hr
    split
    · show (if m.isCapture then _ else _ : OrderingInfo).ply = st.orderingInfo.ply
      split
      · rw [ply_updateKillers, ply_deincrementPly, hr]
        omega
      · rw [ply_incrementHistory, ply_updateKillers, ply_deincrementPly, hr]
        omega
    · split
      · rw [ih]
        show (r.2).orderingInfo.deincrementPly.ply = st.orderingInfo.ply
        rw [ply_deincrementPly, hr]
        omega
      · rw [ih]
        show (r.2).orderingInfo.deincrementPly.ply = st.orderingInfo.ply
        rw [ply_deincrementPly, hr]
        omega

theorem negaMax_ply {Board : Type} (E : Env Board) (cfg : SearchConfig Board) (fuel : Nat) :
    ∀ d st b alpha beta,
      ((negaMax E cfg fuel d st b alpha beta).2).orderingInfo.ply = st.orderingInfo.ply := by
  have hmain : ∀ (recurse : SState → Board → Int → Int → Int × SState),
      (∀ s c a bt, ((recurse s c a bt).2).orderingInfo.ply = s.orderingInfo.ply) →
      ∀ d st b alphaOrig alpha beta,
        ((negaMaxMain recurse E cfg fuel d st b alphaOrig alpha beta).2).orderingInfo.ply
          = st.orderingInfo.ply := by
    intro recurse H d st b alphaOrig alpha beta
    simp only [negaMaxMain]
    split
    · rfl
    · split
      · exact congrArg OrderingInfo.ply (qSearch_frame E cfg fuel st b alpha beta).2.1
      · exact negaLoop_ply recurse E cfg b d (E.legalMoves b) alphaOrig H
          (E.orderMoves st.orderingInfo b (E.legalMoves b)) st alpha beta Move.null
  have hentry : ∀ (recurse : SState → Board → Int → Int → Int × SState),
      (∀ s c a bt, ((recurse s c a bt).2).orderingInfo.ply = s.orderingInfo.ply) →
      ∀ d st b alpha beta,
        ((negaMaxEntry recurse E cfg fuel d st b alpha beta).2).orderingInfo.ply
          = st.orderingInfo.ply := by
    intro recurse H d st b alpha beta
    have hc := congrArg OrderingInfo.ply (checkLimits_frame E cfg st).2.1
    simp only [negaMaxEntry]
    split
    · rfl
    · split
      · exact hc
      · simp only [negaMaxProbe]
        split
        · exact (hmain recurse H d _ b alpha alpha beta).trans hc
        · split
          · split
            · exact hc
            · split
              · exact hc
              · exact (hmain recurse H d _ b alpha alpha _).trans hc
            · split
              · exact hc
              · exact (hmain recurse H d _ b alpha _ beta).trans hc
          · exact (hmain recurse H d _ b alpha alpha beta).trans hc
  intro d
  induction d with
  | zero =>
    intro st b alpha beta
    exact hentry (fun s _ _ _ => (0, s)) (fun _ _ _ _ => rfl) 0 st b alpha beta
  | succ d ih =>
    intro st b alpha beta
    exact hentry (negaMax E cfg fuel d) (fun s c a bt => ih s c a bt) (d + 1) st b alpha beta

theorem rootLoop_ply {Board : Type} (recurse : SState → Board → Int → Int → Int × SState)
    (E : Env Board) (cfg : SearchConfig Board) (b : Board) (beta : Int)
    (H : ∀ s c a bt, ((recurse s c a bt).2).orderingInfo.ply = s.orderingInfo.ply) :
    ∀ ms st alpha bm,
      ((rootLoop recurse E cfg b beta ms st alpha bm).2.2).orderingInfo.ply
        = st.orderingInfo.ply := by
  intro ms
  induction ms with
  | nil => intro st alpha bm; rfl
  | cons m ms ih =>
    intro st alpha bm
    have hr := H ({ st with orderingInfo := st.orderingInfo.incrementPly }) (E.doMove b m)
      (-beta) (-alpha)
    simp only [rootLoop]
    generalize hq : recurse ({ st with orderingInfo := st.orderingInfo.incrementPly })
      (E.doMove b m) (-beta) (-alpha) = r at hr
    simp only [ply_incrementPly] at hr
    have hst3 : (({ r.2 with orderingInfo := r.2.orderingInfo.deincrementPly } : SState)).orderingInfo.ply
        = st.orderingInfo.ply := by
      rw [show (({ r.2 with orderingInfo := r.2.orderingInfo.deincrementPly } : SState)).orderingInfo
        = r.2.orderingInfo.deincrementPly from rfl, ply_deincrementPly, hr]
      omega
    have hcl := congrArg OrderingInfo.ply
      (checkLimits_frame E cfg ({ r.2 with orderingInfo := r.2.orderingInfo.deincrementPly })).2.1
    split
    · exact hst3
    · split
      · exact hcl.trans hst3
      · split
        · split
          · exact hcl.trans hst3
          · exact (ih _ _ _).trans (hcl.trans hst3)
        · exact (ih _ _ _).trans (hcl.trans hst3)

theorem rootMax_ply {Board : Type} (E : Env Board) (cfg : SearchConfig Board)
    (fuel depth : Nat) (st : SState) (b : Board) :
    (rootMax E cfg fuel depth st b).orderingInfo.ply = st.orderingInfo.ply := by
  simp only [rootMax]
  split
  · rfl
  · have hl := rootLoop_ply (negaMax E cfg fuel (depth - 1)) E cfg b E.INF
      (fun s c a bt => negaMax_ply E cfg fuel (depth - 1) s c a bt)
      (E.orderMoves st.orderingInfo b (E.legalMoves b)) ({ st with nodes := 0 })
      (-E.INF) Move.null
    split
    · exact hl
    · exact hl

theorem iterLoop_ply {Board : Type} (E : Env Board) (cfg : SearchConfig Board) (fuel : Nat) :
    ∀ rem currDepth st log,
      ((iterLoop E cfg fuel rem currDepth st log).1).orderingInfo.ply
        = st.orderingInfo.ply := by
  intro rem
  induction rem with
  | zero => intro currDepth st log; rfl
  | succ rem ih =>
    intro currDepth st log
    have h1 := rootMax_ply E cfg fuel currDepth st cfg.board
    simp only [iterLoop]
    split
    · exact h1
    · split
      · exact h1
      · exact (ih _ _ _).trans h1

/-- Claim C7: the ply-indexed ordering state is balanced: every completed
call of `negaMax`, `rootMax`, `qSearch` and the whole iterative-deepening
driver returns with the ply counter at its entry value, on every exit path
including the cancellation ones. -/
theorem claim_C7 {Board : Type} (E : Env Board) (cfg : SearchConfig Board) (fuel : Nat) :
    (∀ d st b alpha beta,
      ((negaMax E cfg fuel d st b alpha beta).2).orderingInfo.ply = st.orderingInfo.ply) ∧
    (∀ depth st b,
      (rootMax E cfg fuel depth st b).orderingInfo.ply = st.orderingInfo.ply) ∧
    (∀ fuelQ st b alpha beta,
      ((qSearch E cfg fuelQ st b alpha beta).2).orderingInfo.ply = st.orderingInfo.ply) ∧
    (∀ st, ((iterDeep E cfg fuel st).1).orderingInfo.ply = st.orderingInfo.ply) :=
  ⟨negaMax_ply E cfg fuel,
   fun depth st b => rootMax_ply E cfg fuel depth st b,
   fun fuelQ st b alpha beta =>
     congrArg OrderingInfo.ply (qSearch_frame E cfg fuelQ st b alpha beta).2.1,
   fun st => iterLoop_ply E cfg fuel cfg.searchDepth.toNat 1 st []⟩

/-! ## Fail-hard containment of the move loops -/

theorem negaLoop_bounds {Board : Type} (recurse : SState → Board → Int → Int → Int × SState)
    (E : Env Board) (cfg : SearchConfig Board) (b : Board) (d : Nat) (legal : List Move)
    (alphaOrig : Int) :
    ∀ ms st alpha beta bm, alpha ≤ beta →
      alpha ≤ (negaLoop recurse E cfg b d legal alphaOrig ms st alpha beta bm).1 ∧
      (negaLoop recurse E cfg b d legal alphaOrig ms st alpha beta bm).1 ≤ beta := by
  intro ms
  induction ms with
  | nil => intro st alpha beta bm h; exact ⟨le_refl alpha, h⟩
  | cons m ms ih =>
    intro st alpha beta bm h
    simp only [negaLoop]
    generalize recurse ({ st with orderingInfo := st.orderingInfo.incrementPly })
      (E.doMove b m) (-beta) (-alpha) = r
    split
    · exact ⟨h, le_refl beta⟩
    · rename_i hcut
      split
      · rename_i hraise
        obtain ⟨g1, g2⟩ := ih ({ r.2 with orderingInfo := r.2.orderingInfo.deincrementPly })
          (-r.1) beta m (le_of_lt (not_le.mp hcut))
        exact ⟨le_trans (le_of_lt hraise) g1, g2⟩
      · exact ih ({ r.2 with orderingInfo := r.2.orderingInfo.deincrementPly })
          alpha beta bm h

theorem qLoop_bounds {Board : Type} (qrec : SState → Board → Int → Int → Int × SState)
    (E : Env Board) (b : Board) :
    ∀ ms st alpha beta, alpha ≤ beta →
      alpha ≤ (qLoop qrec E b ms st alpha beta).1 ∧
      (qLoop qrec E b ms st alpha beta).1 ≤ beta := by
  intro ms
  induction ms with
  | nil => intro st alpha beta h; exact ⟨le_refl alpha, h⟩
  | cons m ms ih =>
    intro st alpha beta h
    simp only [qLoop]
    generalize qrec st (E.doMove b m) (-beta) (-alpha) = r
    split
    · exact ⟨h, le_refl beta⟩
    · rename_i hcut
      split
      · rename_i hraise
        obtain ⟨g1, g2⟩ := ih r.2 (-r.1) beta (le_of_lt (not_le.mp hcut))
        exact ⟨le_trans (le_of_lt hraise) g1, g2⟩
      · exact ih r.2 alpha beta h

/-- Claim C2 (amended): values produced by the move loops are fail-hard
contained: whenever `alpha ≤ beta`, a `negaMax` call at positive depth on a
non-terminal position that neither trips cancellation at entry nor finds a
usable cache entry, and a `qSearch` call on a non-terminal position with at
least one capture that does not trip cancellation at entry, both return a
value within `[alpha, beta]`.  (The cancellation sentinel 0, a direct cache
probe return, the terminal base scores and the quiet-position stand-pat may
lie outside the caller's window.) -/
theorem claim_C2 {Board : Type} (E : Env Board) (cfg : SearchConfig Board) (fuel : Nat) :
    (∀ d st b alpha beta, alpha ≤ beta → st.stop = false → 2 ≤ st.limitCheckCount →
      st.tt (E.zKey b) = none → E.legalMoves b ≠ [] → d ≠ 0 →
      alpha ≤ (negaMax E cfg fuel d st b alpha beta).1 ∧
        (negaMax E cfg fuel d st b alpha beta).1 ≤ beta) ∧
    (∀ fuelQ st b alpha beta, alpha ≤ beta → st.stop = false → 2 ≤ st.limitCheckCount →
      E.legalMoves b ≠ [] → E.orderCaptures (E.legalMoves b) ≠ [] →
      alpha ≤ (qSearch E cfg (fuelQ + 1) st b alpha beta).1 ∧
        (qSearch E cfg (fuelQ + 1) st b alpha beta).1 ≤ beta) := by
  constructor
  · intro d st b alpha beta h hs hc htt hleg hd
    have hle : (E.legalMoves b).isEmpty = false := by
      cases hE : E.legalMoves b with
      | nil => exact absurd hE hleg
      | cons x xs => rfl
    rw [negaMax_eq]
    unfold negaMaxEntry
    rw [checkLimits_fast E cfg st hc, hs]
    simp only [Bool.false_eq_true, if_false]
    unfold negaMaxProbe
    rw [show ({ st with limitCheckCount := st.limitCheckCount - 1 } : SState).tt (E.zKey b)
      = none from htt]
    unfold negaMaxMain
    rw [hle]
    simp only [Bool.false_eq_true, if_false]
    rw [if_neg hd]
    exact negaLoop_bounds (negaPrev E cfg fuel d) E cfg b d (E.legalMoves b) alpha _ _ alpha beta
      Move.null h
  · intro fuelQ st b alpha beta h hs hc hleg hcap
    have hle : (E.legalMoves b).isEmpty = false := by
      cases hE : E.legalMoves b with
      | nil => exact absurd hE hleg
      | cons x xs => rfl
    have hce : (E.orderCaptures (E.legalMoves b)).isEmpty = false := by
      cases hE : E.orderCaptures (E.legalMoves b) with
      | nil => exact absurd hE hcap
      | cons x xs => rfl
    simp only [qSearch]
    rw [checkLimits_fast E cfg st hc, hs]
    simp only [Bool.false_eq_true, if_false]
    simp only [qSearchMain]
    rw [hle]
    simp only [Bool.false_eq_true, if_false]
    rw [hce]
    simp only [Bool.false_eq_true, if_false]
    split
    · exact ⟨h, le_refl beta⟩
    · rename_i hsp
      have ha2 : (if alpha < E.eval b then E.eval b else alpha) ≤ beta := by
        split
        · exact le_of_lt (not_le.mp hsp)
        · exact h
      obtain ⟨g1, g2⟩ := qLoop_bounds (qSearch E cfg fuelQ) E b
        (E.orderCaptures (E.legalMoves b)) _ (if alpha < E.eval b then E.eval b else alpha)
        beta ha2
      refine ⟨le_trans ?_ g1, g2⟩
      split
      · rename_i hx
        exact le_of_lt hx
      · exact le_refl alpha

/-- Claim C2 witness: a depth-1 `negaMax` over the line game stays within
the window (-5, 5), and a `qSearch` over the capture game stays within
(0, 10). -/
theorem claim_C2_wit :
    (-5 ≤ (negaMax EnvLine cfgLine 5 1 stRun 0 (-5) 5).1 ∧
      (negaMax EnvLine cfgLine 5 1 stRun 0 (-5) 5).1 ≤ 5) ∧
    (0 ≤ (qSearch EnvCap cfgLine 4 stRun 0 0 10).1 ∧
      (qSearch EnvCap cfgLine 4 stRun 0 0 10).1 ≤ 10) :=
  ⟨(claim_C2 EnvLine cfgLine 5).1 1 stRun 0 (-5) 5 (by decide) rfl (by decide) rfl
      (by decide) (by decide),
   (claim_C2 EnvCap cfgLine 5).2 3 stRun 0 0 10 (by decide) rfl (by decide)
      (by decide) (by decide)⟩

/-- Claim C2 counterexample: a `negaMax` call on a terminal quiet position
with the window (1, 2) returns the stalemate score 0, which lies below
alpha; the claimed universal fail-hard containment fails. -/
theorem claim_C2_cex :
    ¬ (1 ≤ (negaMax EnvA cfgA 5 2 stRun () 1 2).1 ∧
        (negaMax EnvA cfgA 5 2 stRun () 1 2).1 ≤ 2) := by
  decide

/-! ## History table: writes touch only the root side -/

theorem hist_incrementHistory_ne (oi : OrderingInfo) (s side : Bool) (f t fq tq d : Nat)
    (h : s ≠ side) :
    (oi.incrementHistory side fq tq d).history s f t = oi.history s f t := by
  simp only [OrderingInfo.incrementHistory]
  rw [if_neg (fun hx => h hx.1)]

theorem negaLoop_hist {Board : Type} (recurse : SState → Board → Int → Int → Int × SState)
    (E : Env Board) (cfg : SearchConfig Board) (b : Board) (d : Nat) (legal : List Move)
    (alphaOrig : Int) (side : Bool) (hside : side ≠ E.activePlayer cfg.board)
    (H : ∀ s c a bt f t, ((recurse s c a bt).2).orderingInfo.history side f t
      = s.orderingInfo.history side f t) :
    ∀ ms st alpha beta bm f t,
      ((negaLoop recurse E cfg b d legal alphaOrig ms st alpha beta bm).2).orderingInfo.history
        side f t = st.orderingInfo.history side f t := by
  intro ms
  induction ms with
  | nil => intro st alpha beta bm f t; rfl
  | cons m ms ih =>
    intro st alpha beta bm f t
    have hr := fun f t => H ({ st with orderingInfo := st.orderingInfo.incrementPly })
      (E.doMove b m) (-beta) (-alpha) f t
    simp only [negaLoop]
    generalize hq : recurse ({ st with orderingInfo := st.orderingInfo.incrementPly })
      (E.doMove b m) (-beta) (-alpha) = r at hr
    split
    · show (if m.isCapture then _ else _ : OrderingInfo).history side f t
        = st.orderingInfo.history side f t
      split
      · exact hr f t
      · rw [hist_incrementHistory_ne _ side _ f t _ _ _ hside]
        exact hr f t
    · split
      · rw [ih]
        exact hr f t
      · rw [ih]
        exact hr f t

theorem negaMax_hist {Board : Type} (E : Env Board) (cfg : SearchConfig Board) (fuel : Nat)
    (side : Bool) (hside : side ≠ E.activePlayer cfg.board) :
    ∀ d st b alpha beta f t,
      ((negaMax E cfg fuel d st b alpha beta).2).orderingInfo.history side f t
        = st.orderingInfo.history side f t := by
  have hmain : ∀ (recurse : SState → Board → Int → Int → Int × SState),
      (∀ s c a bt f t, ((recurse s c a bt).2).orderingInfo.history side f t
        = s.orderingInfo.history side f t) →
      ∀ d st b alphaOrig alpha beta f t,
        ((negaMaxMain recurse E cfg fuel d st b alphaOrig alpha beta).2).orderingInfo.history
          side f t = st.orderingInfo.history side f t := by
    intro recurse H d st b alphaOrig alpha beta f t
    simp only [negaMaxMain]
    split
    · rfl
    · split
      · rw [(qSearch_frame E cfg fuel st b alpha beta).2.1]
      · exact negaLoop_hist recurse E cfg b d (E.legalMoves b) alphaOrig side hside H
          (E.orderMoves st.orderingInfo b (E.legalMoves b)) st alpha beta Move.null f t
  have hentry : ∀ (recurse : SState → Board → Int → Int → Int × SState),
      (∀ s c a bt f t, ((recurse s c a bt).2).orderingInfo.history side f t
        = s.orderingInfo.history side f t) →
      ∀ d st b alpha beta f t,
        ((negaMaxEntry recurse E cfg fuel d st b alpha beta).2).orderingInfo.history side f t
          = st.orderingInfo.history side f t := by
    intro recurse H d st b alpha beta f t
    have hc : ((checkLimits E cfg st).2).orderingInfo.history side f t
        = st.orderingInfo.history side f t :=
      congrArg (fun oi => OrderingInfo.history oi side f t) (checkLimits_frame E cfg st).2.1
    simp only [negaMaxEntry]
    split
    · rfl
    · split
      · exact hc
      · simp only [negaMaxProbe]
        split
        · exact (hmain recurse H d _ b alpha alpha beta f t).trans hc
        · split
          · split
            · exact hc
            · split
              · exact hc
              · exact (hmain recurse H d _ b alpha alpha _ f t).trans hc
            · split
              · exact hc
              · exact (hmain recurse H d _ b alpha _ beta f t).trans hc
          · exact (hmain recurse H d _ b alpha alpha beta f t).trans hc
  intro d
  induction d with
  | zero =>
    intro st b alpha beta f t
    exact hentry (fun s _ _ _ => (0, s)) (fun _ _ _ _ _ _ => rfl) 0 st b alpha beta f t
  | succ d ih =>
    intro st b alpha beta f t
    exact hentry (negaMax E cfg fuel d) (fun s c a bt f t => ih s c a bt f t)
      (d + 1) st b alpha beta f t

/-- Claim C9: every history-table increment performed on a beta cutoff in
`negaMax` is keyed on the side to move of the root board held by the search
object, never on the side to move at the node: the history rows of every
other side are left untouched by any `negaMax` call; and concretely, a
cutoff at the odd-ply position 1 of the line game (where the mover is the
opposite side from the root) increments the root side's row and leaves the
node side's row at zero. -/
theorem claim_C9 {Board : Type} (E : Env Board) (cfg : SearchConfig Board) (fuel : Nat) :
    (∀ side, side ≠ E.activePlayer cfg.board →
      ∀ d st b alpha beta f t,
        ((negaMax E cfg fuel d st b alpha beta).2).orderingInfo.history side f t
          = st.orderingInfo.history side f t) ∧
    (EnvLine.activePlayer 1 ≠ EnvLine.activePlayer cfgLine.board ∧
      ((negaMax EnvLine cfgLine 5 1 stRun 1 (-5) 5).2).orderingInfo.history
        (EnvLine.activePlayer cfgLine.board) 1 2 = 1 ∧
      ((negaMax EnvLine cfgLine 5 1 stRun 1 (-5) 5).2).orderingInfo.history
        (EnvLine.activePlayer 1) 1 2 = 0) := by
  refine ⟨fun side hside => negaMax_hist E cfg fuel side hside, ?_, ?_, ?_⟩
  · decide
  · decide
  · decide

/-- Claim C9 witness: over the line game rooted at 0 (a white-to-move
position), the history row of black is untouched by a depth-1 `negaMax`
at the black-to-move position 1. -/
theorem claim_C9_wit :
    ((negaMax EnvLine cfgLine 5 1 stRun 1 (-5) 5).2).orderingInfo.history false 1 2
      = stRun.orderingInfo.history false 1 2 :=
  (claim_C9 EnvLine cfgLine 5).1 false (by decide) 1 stRun 1 (-5) 5 1 2

/-! ## Node counter: reset at the root, counted only at stand-pat -/

theorem negaLoop_nodes {Board : Type} (recurse : SState → Board → Int → Int → Int × SState)
    (E : Env Board) (cfg : SearchConfig Board) (b : Board) (d : Nat) (legal : List Move)
    (alphaOrig : Int)
    (H : ∀ s c a bt, ((recurse s c a bt).2).nodes = s.nodes) :
    ∀ ms st alpha beta bm,
      ((negaLoop recurse E cfg b d legal alphaOrig ms st alpha beta bm).2).nodes
        = st.nodes := by
  intro ms
  induction ms with
  | nil => intro st alpha beta bm; rfl
  | cons m ms ih =>
    intro st alpha beta bm
    have hr := H ({ st with orderingInfo := st.orderingInfo.incrementPly }) (E.doMove b m)
      (-beta) (-alpha)
    simp only [negaLoop]
    generalize hq : recurse ({ st with orderingInfo := st.orderingInfo.incrementPly })
      (E.doMove b m) (-beta) (-alpha) = r at hr
    split
    · exact hr
    · split
      · exact (ih _ _ _ _).trans hr
      · exact (ih _ _ _ _).trans hr

/-- Claim C10: the node counter is reset at the start of every root-search
iteration (the result of `rootMax` is independent of the incoming counter),
is never touched by the cancellation, cache-return or terminal paths of
`negaMax` and `qSearch`, is never touched by the interior move loop itself
(all changes come from the recursive subcalls), and is incremented exactly
once at the stand-pat evaluation of a quiet non-terminal `qSearch` node. -/
theorem claim_C10 {Board : Type} (E : Env Board) (cfg : SearchConfig Board) (fuel : Nat) :
    (∀ (depth : Nat) (st : SState) (b : Board) (n : Nat),
      rootMax E cfg fuel depth ({ st with nodes := n }) b
      = rootMax E cfg fuel depth ({ st with nodes := 0 }) b) ∧
    (∀ d st b alpha beta, st.stop = true →
      ((negaMax E cfg fuel d st b alpha beta).2).nodes = st.nodes) ∧
    (∀ fuelQ st b alpha beta, st.stop = true →
      ((qSearch E cfg fuelQ st b alpha beta).2).nodes = st.nodes) ∧
    (∀ d st b alpha beta, st.stop = false → 2 ≤ st.limitCheckCount →
      st.tt (E.zKey b) = none → E.legalMoves b = [] →
      ((negaMax E cfg fuel d st b alpha beta).2).nodes = st.nodes) ∧
    (∀ d st b alpha beta e, st.stop = false → 2 ≤ st.limitCheckCount →
      st.tt (E.zKey b) = some e → d ≤ e.depth → e.flag = TTFlag.EXACT →
      ((negaMax E cfg fuel d st b alpha beta).2).nodes = st.nodes) ∧
    (∀ fuelQ st b alpha beta, st.stop = false → 2 ≤ st.limitCheckCount →
      E.legalMoves b = [] →
      ((qSearch E cfg (fuelQ + 1) st b alpha beta).2).nodes = st.nodes) ∧
    (∀ fuelQ st b alpha beta, st.stop = false → 2 ≤ st.limitCheckCount →
      E.legalMoves b ≠ [] → E.orderCaptures (E.legalMoves b) = [] →
      ((qSearch E cfg (fuelQ + 1) st b alpha beta).2).nodes = st.nodes + 1) ∧
    (∀ (recurse : SState → Board → Int → Int → Int × SState),
      (∀ s c a bt, ((recurse s c a bt).2).nodes = s.nodes) →
      ∀ b d legal alphaOrig ms st alpha beta bm,
        ((negaLoop recurse E cfg b d legal alphaOrig ms st alpha beta bm).2).nodes
          = st.nodes) := by
  refine ⟨?_, ?_, ?_, ?_, ?_, ?_, ?_, ?_⟩
  · intro depth st b n
    rfl
  · intro d st b alpha beta hstop
    rw [negaMax_eq]
    unfold negaMaxEntry
    rw [hstop]
    rfl
  · intro fuelQ st b alpha beta hstop
    cases fuelQ with
    | zero => rfl
    | succ fuelQ =>
      simp only [qSearch]
      rw [hstop]
      rfl
  · intro d st b alpha beta hs hc htt hleg
    rw [negaMax_eq]
    unfold negaMaxEntry
    rw [checkLimits_fast E cfg st hc, hs]
    simp only [Bool.false_eq_true, if_false]
    unfold negaMaxProbe
    rw [show ({ st with limitCheckCount := st.limitCheckCount - 1 } : SState).tt (E.zKey b)
      = none from htt]
    unfold negaMaxMain
    rw [hleg]
    rfl
  · intro d st b alpha beta e hs hc he hdep hfl
    rw [negaMax_eq]
    unfold negaMaxEntry
    rw [checkLimits_fast E cfg st hc, hs]
    simp only [Bool.false_eq_true, if_false]
    unfold negaMaxProbe
    rw [show ({ st with limitCheckCount := st.limitCheckCount - 1 } : SState).tt (E.zKey b)
      = some e from he]
    simp only [if_pos hdep, hfl]
  · intro fuelQ st b alpha beta hs hc hleg
    simp only [qSearch]
    rw [checkLimits_fast E cfg st hc, hs]
    simp only [Bool.false_eq_true, if_false]
    unfold qSearchMain
    rw [hleg]
    rfl
  · intro fuelQ st b alpha beta hs hc hleg hcap
    have hle : (E.legalMoves b).isEmpty = false := by
      cases hE : E.legalMoves b with
      | nil => exact absurd hE hleg
      | cons x xs => rfl
    simp only [qSearch]
    rw [checkLimits_fast E cfg st hc, hs]
    simp only [Bool.false_eq_true, if_false]
    simp only [qSearchMain]
    rw [hle]
    simp only [Bool.false_eq_true, if_false]
    rw [hcap]
    rfl
  · intro recurse H b d legal alphaOrig ms st alpha beta bm
    exact negaLoop_nodes recurse E cfg b d legal alphaOrig H ms st alpha beta bm

/-- Claim C10 witness: concrete instances of each counted and uncounted
path over the line game and the one-point boards. -/
theorem claim_C10_wit :
    (rootMax EnvLine cfgLine 5 1 ({ stRun with nodes := 7 }) 0
      = rootMax EnvLine cfgLine 5 1 ({ stRun with nodes := 0 }) 0) ∧
    ((negaMax EnvLine cfgLine 5 2 ({ stRun with stop := true }) 0 0 5).2).nodes
      = ({ stRun with stop := true } : SState).nodes ∧
    ((qSearch EnvA cfgA 4 stRun () 1 2).2).nodes = stRun.nodes ∧
    ((negaMax EnvA cfgA 5 2 (stWith ⟨7, 3, TTFlag.EXACT, mvL 0⟩) () 0 10).2).nodes
      = (stWith ⟨7, 3, TTFlag.EXACT, mvL 0⟩).nodes ∧
    ((qSearch EnvLine cfgLine 4 stRun 1 0 5).2).nodes = stRun.nodes + 1 := by
  refine ⟨?_, ?_, ?_, ?_, ?_⟩
  · exact (claim_C10 EnvLine cfgLine 5).1 1 stRun 0 7
  · exact (claim_C10 EnvLine cfgLine 5).2.1 2 ({ stRun with stop := true }) 0 0 5 rfl
  · exact (claim_C10 EnvA cfgA 5).2.2.2.2.2.1 3 stRun () 1 2 rfl (by decide) rfl
  · exact (claim_C10 EnvA cfgA 5).2.2.2.2.1 2 (stWith ⟨7, 3, TTFlag.EXACT, mvL 0⟩) () 0 10
      ⟨7, 3, TTFlag.EXACT, mvL 0⟩ rfl (by decide) rfl (by decide) rfl
  · exact (claim_C10 EnvLine cfgLine 5).2.2.2.2.2.2.1 3 stRun 1 0 5 rfl (by decide)
      (by decide) (by decide)

/-! ## Generic preservation of state relations along the search -/

theorem qLoop_pres {Board : Type} (qrec : SState → Board → Int → Int → Int × SState)
    (E : Env Board) (b : Board) (P : SState → SState → Prop)
    (htrans : ∀ {x y z : SState}, P x y → P y z → P x z) (hrefl : ∀ s, P s s)
    (hRec : ∀ s c a bt, P s ((qrec s c a bt).2)) :
    ∀ ms st alpha beta, P st ((qLoop qrec E b ms st alpha beta).2) := by
  intro ms
  induction ms with
  | nil => intro st alpha beta; exact hrefl st
  | cons m ms ih =>
    intro st alpha beta
    have hr := hRec st (E.doMove b m) (-beta) (-alpha)
    simp only [qLoop]
    generalize hq : qrec st (E.doMove b m) (-beta) (-alpha) = r at hr
    split
    · exact hr
    · split
      · exact htrans hr (ih r.2 (-r.1) beta)
      · exact htrans hr (ih r.2 alpha beta)

theorem qSearch_pres {Board : Type} (E : Env Board) (cfg : SearchConfig Board)
    (P : SState → SState → Prop)
    (htrans : ∀ {x y z : SState}, P x y → P y z → P x z) (hrefl : ∀ s, P s s)
    (hStopSet : ∀ s, P s ({ s with stop := true }))
    (hCheckTrue : ∀ s, s.stop = false → (checkLimits E cfg s).1 = true →
      P s ({ (checkLimits E cfg s).2 with stop := true }))
    (hCheckFalse : ∀ s, s.stop = false → (checkLimits E cfg s).1 = false →
      P s ((checkLimits E cfg s).2))
    (hNodesInc : ∀ s, s.stop = false → (checkLimits E cfg s).1 = false →
      P s ({ (checkLimits E cfg s).2 with nodes := (checkLimits E cfg s).2.nodes + 1 })) :
    ∀ fuel st b alpha beta, P st ((qSearch E cfg fuel st b alpha beta).2) := by
  intro fuel
  induction fuel with
  | zero => intro st b alpha beta; exact hrefl st
  | succ fuel ih =>
    intro st b alpha beta
    simp only [qSearch]
    split
    · exact hStopSet st
    · rename_i hstop
      have hstop2 : st.stop = false := by
        cases hx : st.stop
        · rfl
        · exact absurd hx hstop
      split
      · rename_i hflag
        exact hCheckTrue st hstop2 hflag
      · rename_i hflag
        have hflag2 : (checkLimits E cfg st).1 = false := by
          cases hx : (checkLimits E cfg st).1
          · rfl
          · exact absurd hx hflag
        simp only [qSearchMain]
        split
        · exact hCheckFalse st hstop2 hflag2
        · split
          · exact hNodesInc st hstop2 hflag2
          · split
            · exact hNodesInc st hstop2 hflag2
            · exact htrans (hNodesInc st hstop2 hflag2)
                (qLoop_pres (qSearch E cfg fuel) E b P htrans hrefl
                  (fun s c a bt => ih s c a bt) _ _ _ _)

theorem negaLoop_pres {Board : Type} (recurse : SState → Board → Int → Int → Int × SState)
    (E : Env Board) (cfg : SearchConfig Board) (b : Board) (d : Nat) (legal : List Move)
    (alphaOrig : Int) (P : SState → SState → Prop)
    (htrans : ∀ {x y z : SState}, P x y → P y z → P x z) (hrefl : ∀ s, P s s)
    (hOi : ∀ s oi, P s ({ s with orderingInfo := oi }))
    (hTt : ∀ s f, P s ({ s with tt := f }))
    (hOiTt : ∀ s oi f, P s ({ s with orderingInfo := oi, tt := f }))
    (hRec : ∀ s c a bt, P s ((recurse s c a bt).2)) :
    ∀ ms st alpha beta bm,
      P st ((negaLoop recurse E cfg b d legal alphaOrig ms st alpha beta bm).2) := by
  intro ms
  induction ms with
  | nil => intro st alpha beta bm; exact hTt st _
  | cons m ms ih =>
    intro st alpha beta bm
    have h1 : P st ({ st with orderingInfo := st.orderingInfo.incrementPly }) := hOi st _
    have h2 := hRec ({ st with orderingInfo := st.orderingInfo.incrementPly })
      (E.doMove b m) (-beta) (-alpha)
    simp only [negaLoop]
    generalize hq : recurse ({ st with orderingInfo := st.orderingInfo.incrementPly })
      (E.doMove b m) (-beta) (-alpha) = r at h2
    have h3 : P r.2 ({ r.2 with orderingInfo := r.2.orderingInfo.deincrementPly }) := hOi r.2 _
    have hto3 : P st ({ r.2 with orderingInfo := r.2.orderingInfo.deincrementPly }) :=
      htrans (htrans h1 h2) h3
    split
    · exact htrans hto3 (hOiTt _ _ _)
    · split
      · exact htrans hto3 (ih _ _ _ _)
      · exact htrans hto3 (ih _ _ _ _)

theorem negaMax_pres {Board : Type} (E : Env Board) (cfg : SearchConfig Board) (fuel : Nat)
    (P : SState → SState → Prop)
    (htrans : ∀ {x y z : SState}, P x y → P y z → P x z) (hrefl : ∀ s, P s s)
    (hOi : ∀ s oi, P s ({ s with orderingInfo := oi }))
    (hTt : ∀ s f, P s ({ s with tt := f }))
    (hOiTt : ∀ s oi f, P s ({ s with orderingInfo := oi, tt := f }))
    (hStopSet : ∀ s, P s ({ s with stop := true }))
    (hCheckTrue : ∀ s, s.stop = false → (checkLimits E cfg s).1 = true →
      P s ({ (checkLimits E cfg s).2 with stop := true }))
    (hCheckFalse : ∀ s, s.stop = false → (checkLimits E cfg s).1 = false →
      P s ((checkLimits E cfg s).2))
    (hNodesInc : ∀ s, s.stop = false → (checkLimits E cfg s).1 = false →
      P s ({ (checkLimits E cfg s).2 with nodes := (checkLimits E cfg s).2.nodes + 1 })) :
    ∀ d st b alpha beta, P st ((negaMax E cfg fuel d st b alpha beta).2) := by
  have hmain : ∀ (recurse : SState → Board → Int → Int → Int × SState),
      (∀ s c a bt, P s ((recurse s c a bt).2)) →
      ∀ d st b alphaOrig alpha beta,
        P st ((negaMaxMain recurse E cfg fuel d st b alphaOrig alpha beta).2) := by
    intro recurse hRec d st b alphaOrig alpha beta
    simp only [negaMaxMain]
    split
    · exact hrefl st
    · split
      · exact qSearch_pres E cfg P htrans hrefl hStopSet hCheckTrue hCheckFalse hNodesInc
          fuel st b alpha beta
      · exact negaLoop_pres recurse E cfg b d (E.legalMoves b) alphaOrig P htrans hrefl
          hOi hTt hOiTt hRec _ st alpha beta Move.null
  have hentry : ∀ (recurse : SState → Board → Int → Int → Int × SState),
      (∀ s c a bt, P s ((recurse s c a bt).2)) →
      ∀ d st b alpha beta, P st ((negaMaxEntry recurse E cfg fuel d st b alpha beta).2) := by
    intro recurse hRec d st b alpha beta
    simp only [negaMaxEntry]
    split
    · exact hStopSet st
    · rename_i hstop
      have hstop2 : st.stop = false := by
        cases hx : st.stop
        · rfl
        · exact absurd hx hstop
      split
      · rename_i hflag
        exact hCheckTrue st hstop2 hflag
      · rename_i hflag
        have hflag2 : (checkLimits E cfg st).1 = false := by
          cases hx : (checkLimits E cfg st).1
          · rfl
          · exact absurd hx hflag
        have hcf : P st ((checkLimits E cfg st).2) := hCheckFalse st hstop2 hflag2
        simp only [negaMaxProbe]
        split
        · exact htrans hcf (hmain recurse hRec d _ b alpha alpha beta)
        · split
          · split
            · exact hcf
            · split
              · exact hcf
              · exact htrans hcf (hmain recurse hRec d _ b alpha alpha _)
            · split
              · exact hcf
              · exact htrans hcf (hmain recurse hRec d _ b alpha _ beta)
          · exact htrans hcf (hmain recurse hRec d _ b alpha alpha beta)
  intro d
  induction d with
  | zero =>
    intro st b alpha beta
    exact hentry (fun s _ _ _ => (0, s)) (fun s _ _ _ => hrefl s) 0 st b alpha beta
  | succ d ih =>
    intro st b alpha beta
    exact hentry (negaMax E cfg fuel d) (fun s c a bt => ih s c a bt) (d + 1) st b alpha beta

theorem rootLoop_pres {Board : Type} (recurse : SState → Board → Int → Int → Int × SState)
    (E : Env Board) (cfg : SearchConfig Board) (b : Board) (beta : Int)
    (P : SState → SState → Prop)
    (htrans : ∀ {x y z : SState}, P x y → P y z → P x z) (hrefl : ∀ s, P s s)
    (hOi : ∀ s oi, P s ({ s with orderingInfo := oi }))
    (hStopSet : ∀ s, P s ({ s with stop := true }))
    (hCheckTrue : ∀ s, s.stop = false → (checkLimits E cfg s).1 = true →
      P s ({ (checkLimits E cfg s).2 with stop := true }))
    (hCheckFalse : ∀ s, s.stop = false → (checkLimits E cfg s).1 = false →
      P s ((checkLimits E cfg s).2))
    (hRec : ∀ s c a bt, P s ((recurse s c a bt).2)) :
    ∀ ms st alpha bm, P st ((rootLoop recurse E cfg b beta ms st alpha bm).2.2) := by
  intro ms
  induction ms with
  | nil => intro st alpha bm; exact hrefl st
  | cons m ms ih =>
    intro st alpha bm
    have h1 : P st ({ st with orderingInfo := st.orderingInfo.incrementPly }) := hOi st _
    have h2 := hRec ({ st with orderingInfo := st.orderingInfo.incrementPly })
      (E.doMove b m) (-beta) (-alpha)
    simp only [rootLoop]
    generalize hq : recurse ({ st with orderingInfo := st.orderingInfo.incrementPly })
      (E.doMove b m) (-beta) (-alpha) = r at h2
    have h3 : P r.2 ({ r.2 with orderingInfo := r.2.orderingInfo.deincrementPly }) := hOi r.2 _
    have hto3 : P st ({ r.2 with orderingInfo := r.2.orderingInfo.deincrementPly }) :=
      htrans (htrans h1 h2) h3
    split
    · exact htrans hto3 (hStopSet _)
    · rename_i hst3
      have hst3f : ({ r.2 with orderingInfo := r.2.orderingInfo.deincrementPly } : SState).stop
          = false := by
        cases hx : ({ r.2 with orderingInfo := r.2.orderingInfo.deincrementPly } : SState).stop
        · rfl
        · exact absurd hx hst3
      split
      · rename_i hflag
        exact htrans hto3 (hCheckTrue _ hst3f hflag)
      · rename_i hflag
        have hflag2 : (checkLimits E cfg
            ({ r.2 with orderingInfo := r.2.orderingInfo.deincrementPly })).1 = false := by
          cases hx : (checkLimits E cfg
              ({ r.2 with orderingInfo := r.2.orderingInfo.deincrementPly })).1
          · rfl
          · exact absurd hx hflag
        have hcf := hCheckFalse _ hst3f hflag2
        split
        · split
          · exact htrans hto3 hcf
          · exact htrans hto3 (htrans hcf (ih _ _ _))
        · exact htrans hto3 (htrans hcf (ih _ _ _))

theorem rootMax_pres {Board : Type} (E : Env Board) (cfg : SearchConfig Board) (fuel : Nat)
    (P : SState → SState → Prop)
    (htrans : ∀ {x y z : SState}, P x y → P y z → P x z) (hrefl : ∀ s, P s s)
    (hOi : ∀ s oi, P s ({ s with orderingInfo := oi }))
    (hTt : ∀ s f, P s ({ s with tt := f }))
    (hOiTt : ∀ s oi f, P s ({ s with orderingInfo := oi, tt := f }))
    (hStopSet : ∀ s, P s ({ s with stop := true }))
    (hCheckTrue : ∀ s, s.stop = false → (checkLimits E cfg s).1 = true →
      P s ({ (checkLimits E cfg s).2 with stop := true }))
    (hCheckFalse : ∀ s, s.stop = false → (checkLimits E cfg s).1 = false →
      P s ((checkLimits E cfg s).2))
    (hNodesInc : ∀ s, s.stop = false → (checkLimits E cfg s).1 = false →
      P s ({ (checkLimits E cfg s).2 with nodes := (checkLimits E cfg s).2.nodes + 1 }))
    (hNodesZero : ∀ s, P s ({ s with nodes := 0 }))
    (hTerm : ∀ s, P s ({ s with nodes := 0, bestMove := Move.null, bestScore := -E.INF }))
    (hCommit : ∀ s f bm sc, P s ({ s with tt := f, bestMove := bm, bestScore := sc })) :
    ∀ depth st b, P st (rootMax E cfg fuel depth st b) := by
  intro depth st b
  simp only [rootMax]
  split
  · exact hTerm st
  · have h0 : P st ({ st with nodes := 0 }) := hNodesZero st
    have hl := rootLoop_pres (negaMax E cfg fuel (depth - 1)) E cfg b E.INF P htrans hrefl
      hOi hStopSet hCheckTrue hCheckFalse
      (fun s c a bt => negaMax_pres E cfg fuel P htrans hrefl hOi hTt hOiTt hStopSet
        hCheckTrue hCheckFalse hNodesInc (depth - 1) s c a bt)
      (E.orderMoves st.orderingInfo b (E.legalMoves b)) ({ st with nodes := 0 })
      (-E.INF) Move.null
    split
    · exact htrans h0 hl
    · exact htrans h0 (htrans hl (hCommit _ _ _ _))

theorem iterLoop_pres {Board : Type} (E : Env Board) (cfg : SearchConfig Board) (fuel : Nat)
    (P : SState → SState → Prop)
    (htrans : ∀ {x y z : SState}, P x y → P y z → P x z) (hrefl : ∀ s, P s s)
    (hTick : ∀ s, P s ({ s with tick := s.tick + 1 }))
    (hRoot : ∀ depth s, P s (rootMax E cfg fuel depth s cfg.board)) :
    ∀ rem currDepth st log, P st ((iterLoop E cfg fuel rem currDepth st log).1) := by
  intro rem
  induction rem with
  | zero => intro currDepth st log; exact hrefl st
  | succ rem ih =>
    intro currDepth st log
    have h1 : P st ({ rootMax E cfg fuel currDepth st cfg.board with
        tick := (rootMax E cfg fuel currDepth st cfg.board).tick + 1 }) :=
      htrans (hRoot currDepth st) (hTick _)
    simp only [iterLoop]
    split
    · exact h1
    · split
      · exact h1
      · exact htrans h1 (ih _ _ _)

/-! ## Stop-flag monotonicity and best-move frames -/

theorem negaMax_stopMono {Board : Type} (E : Env Board) (cfg : SearchConfig Board) (fuel : Nat) :
    ∀ d st b alpha beta, st.stop = true → ((negaMax E cfg fuel d st b alpha beta).2).stop
      = true := by
  have h := negaMax_pres E cfg fuel (fun x y => x.stop = true → y.stop = true)
    (fun hxy hyz hx => hyz (hxy hx)) (fun s hx => hx)
    (fun s oi hx => hx) (fun s f hx => hx) (fun s oi f hx => hx)
    (fun s _ => rfl) (fun s _ _ _ => rfl)
    (fun s hs _ hx => absurd hx (by rw [hs]; exact Bool.false_ne_true))
    (fun s hs _ hx => absurd hx (by rw [hs]; exact Bool.false_ne_true))
  intro d st b alpha beta hx
  exact h d st b alpha beta hx

theorem rootMax_stopMono {Board : Type} (E : Env Board) (cfg : SearchConfig Board) (fuel : Nat) :
    ∀ depth st b, st.stop = true → (rootMax E cfg fuel depth st b).stop = true := by
  have h := rootMax_pres E cfg fuel (fun x y => x.stop = true → y.stop = true)
    (fun hxy hyz hx => hyz (hxy hx)) (fun s hx => hx)
    (fun s oi hx => hx) (fun s f hx => hx) (fun s oi f hx => hx)
    (fun s _ => rfl) (fun s _ _ _ => rfl)
    (fun s hs _ hx => absurd hx (by rw [hs]; exact Bool.false_ne_true))
    (fun s hs _ hx => absurd hx (by rw [hs]; exact Bool.false_ne_true))
    (fun s hx => hx) (fun s hx => hx) (fun s f bm sc hx => hx)
  intro depth st b hx
  exact h depth st b hx

theorem iterLoop_stopMono {Board : Type} (E : Env Board) (cfg : SearchConfig Board)
    (fuel : Nat) :
    ∀ rem currDepth st log, st.stop = true →
      ((iterLoop E cfg fuel rem currDepth st log).1).stop = true := by
  have h := iterLoop_pres E cfg fuel (fun x y => x.stop = true → y.stop = true)
    (fun hxy hyz hx => hyz (hxy hx)) (fun s hx => hx) (fun s hx => hx)
    (fun depth s hx => rootMax_stopMono E cfg fuel depth s cfg.board hx)
  intro rem currDepth st log hx
  exact h rem currDepth st log hx

theorem negaMax_frameBM {Board : Type} (E : Env Board) (cfg : SearchConfig Board) (fuel : Nat) :
    ∀ d st b alpha beta,
      ((negaMax E cfg fuel d st b alpha beta).2).bestMove = st.bestMove ∧
      ((negaMax E cfg fuel d st b alpha beta).2).bestScore = st.bestScore := by
  have h := negaMax_pres E cfg fuel
    (fun x y => y.bestMove = x.bestMove ∧ y.bestScore = x.bestScore)
    (fun hxy hyz => ⟨hyz.1.trans hxy.1, hyz.2.trans hxy.2⟩) (fun s => ⟨rfl, rfl⟩)
    (fun s oi => ⟨rfl, rfl⟩) (fun s f => ⟨rfl, rfl⟩) (fun s oi f => ⟨rfl, rfl⟩)
    (fun s => ⟨rfl, rfl⟩)
    (fun s _ _ => ⟨(checkLimits_frame E cfg s).2.2.2.2.1, (checkLimits_frame E cfg s).2.2.2.2.2⟩)
    (fun s _ _ => ⟨(checkLimits_frame E cfg s).2.2.2.2.1, (checkLimits_frame E cfg s).2.2.2.2.2⟩)
    (fun s _ _ => ⟨(checkLimits_frame E cfg s).2.2.2.2.1, (checkLimits_frame E cfg s).2.2.2.2.2⟩)
  exact h

theorem rootLoop_frameBM {Board : Type} (E : Env Board) (cfg : SearchConfig Board)
    (fuel subd : Nat) (b : Board) (beta : Int) :
    ∀ ms st alpha bm,
      ((rootLoop (negaMax E cfg fuel subd) E cfg b beta ms st alpha bm).2.2).bestMove
        = st.bestMove ∧
      ((rootLoop (negaMax E cfg fuel subd) E cfg b beta ms st alpha bm).2.2).bestScore
        = st.bestScore := by
  have h := rootLoop_pres (negaMax E cfg fuel subd) E cfg b beta
    (fun x y => y.bestMove = x.bestMove ∧ y.bestScore = x.bestScore)
    (fun hxy hyz => ⟨hyz.1.trans hxy.1, hyz.2.trans hxy.2⟩) (fun s => ⟨rfl, rfl⟩)
    (fun s oi => ⟨rfl, rfl⟩) (fun s => ⟨rfl, rfl⟩)
    (fun s _ _ => ⟨(checkLimits_frame E cfg s).2.2.2.2.1, (checkLimits_frame E cfg s).2.2.2.2.2⟩)
    (fun s _ _ => ⟨(checkLimits_frame E cfg s).2.2.2.2.1, (checkLimits_frame E cfg s).2.2.2.2.2⟩)
    (fun s c a bt => negaMax_frameBM E cfg fuel subd s c a bt)
  exact h

/-! ## The transposition table stays free of null moves -/

theorem ttOkay_set (tt : Nat → Option TTEntry) (k : Nat) (e : TTEntry)
    (h : ttOkay tt) (he : e.bestMove.isNull = false) : ttOkay (ttSet tt k e) := by
  intro k2 e2 h2
  unfold ttSet at h2
  by_cases hk : k2 = k
  · rw [if_pos hk] at h2
    obtain rfl : e = e2 := Option.some.inj h2
    exact he
  · rw [if_neg hk] at h2
    exact h k2 e2 h2

theorem negaLoop_ttOkay {Board : Type} (recurse : SState → Board → Int → Int → Int × SState)
    (E : Env Board) (cfg : SearchConfig Board) (b : Board) (d : Nat) (legal : List Move)
    (alphaOrig : Int)
    (hne : legal ≠ []) (hlegal : ∀ m ∈ legal, m.isNull = false)
    (hRec : ∀ s c a bt, ttOkay s.tt → ttOkay ((recurse s c a bt).2).tt) :
    ∀ ms st alpha beta bm, (∀ m ∈ ms, m.isNull = false) → ttOkay st.tt →
      ttOkay ((negaLoop recurse E cfg b d legal alphaOrig ms st alpha beta bm).2).tt := by
  intro ms
  induction ms with
  | nil =>
    intro st alpha beta bm hms hok
    simp only [negaLoop]
    refine ttOkay_set _ _ _ hok ?_
    show (if bm.isNull then legal.headD Move.null else bm).isNull = false
    cases hbm : bm.isNull with
    | false => simp only [Bool.false_eq_true, if_false]; exact hbm
    | true =>
      simp only [if_true]
      cases legal with
      | nil => exact absurd rfl hne
      | cons x xs => exact hlegal x (by simp)
  | cons m ms ih =>
    intro st alpha beta bm hms hok
    have h2 : ttOkay ((recurse ({ st with orderingInfo := st.orderingInfo.incrementPly })
        (E.doMove b m) (-beta) (-alpha)).2).tt :=
      hRec _ _ _ _ hok
    simp only [negaLoop]
    generalize hq : recurse ({ st with orderingInfo := st.orderingInfo.incrementPly })
      (E.doMove b m) (-beta) (-alpha) = r at h2
    split
    · refine ttOkay_set _ _ _ h2 ?_
      show m.isNull = false
      exact hms m (by simp)
    · split
      · exact ih _ _ _ _ (fun x hx => hms x (by simp [hx])) h2
      · exact ih _ _ _ _ (fun x hx => hms x (by simp [hx])) h2

theorem negaMax_ttOkay {Board : Type} (E : Env Board) (cfg : SearchConfig Board) (fuel : Nat)
    (hmv : ∀ b m, m ∈ E.legalMoves b → m.isNull = false)
    (hord : ∀ oi b ms m, m ∈ E.orderMoves oi b ms → m ∈ ms) :
    ∀ d st b alpha beta, ttOkay st.tt →
      ttOkay ((negaMax E cfg fuel d st b alpha beta).2).tt := by
  have hmain : ∀ (recurse : SState → Board → Int → Int → Int × SState),
      (∀ s c a bt, ttOkay s.tt → ttOkay ((recurse s c a bt).2).tt) →
      ∀ d st b alphaOrig alpha beta, ttOkay st.tt →
        ttOkay ((negaMaxMain recurse E cfg fuel d st b alphaOrig alpha beta).2).tt := by
    intro recurse hRec d st b alphaOrig alpha beta hok
    simp only [negaMaxMain]
    split
    · exact hok
    · rename_i hne0
      have hne : E.legalMoves b ≠ [] := by
        intro hx
        rw [hx] at hne0
        exact hne0 rfl
      split
      · rw [(qSearch_frame E cfg fuel st b alpha beta).1]
        exact hok
      · exact negaLoop_ttOkay recurse E cfg b d (E.legalMoves b) alphaOrig hne (hmv b) hRec
          (E.orderMoves st.orderingInfo b (E.legalMoves b)) st alpha beta Move.null
          (fun m hm => hmv b m (hord _ b _ m hm)) hok
  have hentry : ∀ (recurse : SState → Board → Int → Int → Int × SState),
      (∀ s c a bt, ttOkay s.tt → ttOkay ((recurse s c a bt).2).tt) →
      ∀ d st b alpha beta, ttOkay st.tt →
        ttOkay ((negaMaxEntry recurse E cfg fuel d st b alpha beta).2).tt := by
    intro recurse hRec d st b alpha beta hok
    have hok1 : ttOkay ((checkLimits E cfg st).2).tt := by
      rw [(checkLimits_frame E cfg st).1]
      exact hok
    simp only [negaMaxEntry]
    split
    · exact hok
    · split
      · exact hok1
      · simp only [negaMaxProbe]
        split
        · exact hmain recurse hRec d _ b alpha alpha beta hok1
        · split
          · split
            · exact hok1
            · split
              · exact hok1
              · exact hmain recurse hRec d _ b alpha alpha _ hok1
            · split
              · exact hok1
              · exact hmain recurse hRec d _ b alpha _ beta hok1
          · exact hmain recurse hRec d _ b alpha alpha beta hok1
  intro d
  induction d with
  | zero =>
    intro st b alpha beta hok
    exact hentry (fun s _ _ _ => (0, s)) (fun s _ _ _ h => h) 0 st b alpha beta hok
  | succ d ih =>
    intro st b alpha beta hok
    exact hentry (negaMax E cfg fuel d) (fun s c a bt h => ih s c a bt h) (d + 1) st b
      alpha beta hok

theorem rootMax_ttOkay {Board : Type} (E : Env Board) (cfg : SearchConfig Board) (fuel : Nat)
    (hmv : ∀ b m, m ∈ E.legalMoves b → m.isNull = false)
    (hord : ∀ oi b ms m, m ∈ E.orderMoves oi b ms → m ∈ ms) :
    ∀ depth st b, ttOkay st.tt → ttOkay (rootMax E cfg fuel depth st b).tt := by
  intro depth st b hok
  have hloop := rootLoop_pres (negaMax E cfg fuel (depth - 1)) E cfg b E.INF
    (fun x y => ttOkay x.tt → ttOkay y.tt)
    (fun hxy hyz hx => hyz (hxy hx)) (fun s hx => hx)
    (fun s oi hx => hx) (fun s hx => hx)
    (fun s _ _ hx => by rw [(checkLimits_frame E cfg s).1]; exact hx)
    (fun s _ _ hx => by rw [(checkLimits_frame E cfg s).1]; exact hx)
    (fun s c a bt hx => negaMax_ttOkay E cfg fuel hmv hord (depth - 1) s c a bt hx)
  simp only [rootMax]
  split
  · exact hok
  · rename_i hne0
    have hne : E.legalMoves b ≠ [] := by
      intro hx
      rw [hx] at hne0
      exact hne0 rfl
    have hok2 := hloop (E.orderMoves st.orderingInfo b (E.legalMoves b))
      ({ st with nodes := 0 }) (-E.INF) Move.null hok
    split
    · exact hok2
    · refine ttOkay_set _ _ _ hok2 ?_
      show (if (rootLoop (negaMax E cfg fuel (depth - 1)) E cfg b E.INF
        (E.orderMoves st.orderingInfo b (E.legalMoves b)) ({ st with nodes := 0 })
        (-E.INF) Move.null).2.1.isNull then (E.legalMoves b).headD Move.null
        else (rootLoop (negaMax E cfg fuel (depth - 1)) E cfg b E.INF
          (E.orderMoves st.orderingInfo b (E.legalMoves b)) ({ st with nodes := 0 })
          (-E.INF) Move.null).2.1).isNull = false
      split
      · cases hE : E.legalMoves b with
        | nil => exact absurd hE hne
        | cons x xs => exact hmv b x (by rw [hE]; simp)
      · rename_i hni
        cases hx : (rootLoop (negaMax E cfg fuel (depth - 1)) E cfg b E.INF
            (E.orderMoves st.orderingInfo b (E.legalMoves b)) ({ st with nodes := 0 })
            (-E.INF) Move.null).2.1.isNull with
        | false => rfl
        | true => exact absurd hx hni

theorem iterLoop_ttOkay {Board : Type} (E : Env Board) (cfg : SearchConfig Board) (fuel : Nat)
    (hmv : ∀ b m, m ∈ E.legalMoves b → m.isNull = false)
    (hord : ∀ oi b ms m, m ∈ E.orderMoves oi b ms → m ∈ ms) :
    ∀ rem currDepth st log, ttOkay st.tt →
      ttOkay (((iterLoop E cfg fuel rem currDepth st log).1)).tt := by
  have h := iterLoop_pres E cfg fuel (fun x y => ttOkay x.tt → ttOkay y.tt)
    (fun hxy hyz hx => hyz (hxy hx)) (fun s hx => hx) (fun s hx => hx)
    (fun depth s hx => rootMax_ttOkay E cfg fuel hmv hord depth s cfg.board hx)
  intro rem currDepth st log hok
  exact h rem currDepth st log hok

theorem list_isEmpty_false {A : Type} (l : List A) (h : l ≠ []) : l.isEmpty = false := by
  cases l with
  | nil => exact absurd rfl h
  | cons x xs => rfl

theorem rootMax_bestNN {Board : Type} (E : Env Board) (cfg : SearchConfig Board)
    (fuel : Nat) (hmv : ∀ b m, m ∈ E.legalMoves b → m.isNull = false)
    (depth : Nat) (st : SState) (b : Board) (hne : E.legalMoves b ≠ [])
    (h : (rootMax E cfg fuel depth st b).stop = false) :
    (rootMax E cfg fuel depth st b).bestMove.isNull = false := by
  simp only [rootMax] at h ⊢
  rw [list_isEmpty_false _ hne] at h ⊢
  simp only [Bool.false_eq_true, if_false] at h ⊢
  by_cases hx : (rootLoop (negaMax E cfg fuel (depth - 1)) E cfg b E.INF
      (E.orderMoves st.orderingInfo b (E.legalMoves b)) ({ st with nodes := 0 })
      (-E.INF) Move.null).2.2.stop = true
  · rw [if_pos hx] at h
    rw [h] at hx
    exact absurd hx (by simp)
  · rw [if_neg hx]
    show (if (rootLoop (negaMax E cfg fuel (depth - 1)) E cfg b E.INF
      (E.orderMoves st.orderingInfo b (E.legalMoves b)) ({ st with nodes := 0 })
      (-E.INF) Move.null).2.1.isNull then (E.legalMoves b).headD Move.null
      else (rootLoop (negaMax E cfg fuel (depth - 1)) E cfg b E.INF
        (E.orderMoves st.orderingInfo b (E.legalMoves b)) ({ st with nodes := 0 })
        (-E.INF) Move.null).2.1).isNull = false
    split
    · cases hE : E.legalMoves b with
      | nil => exact absurd hE hne
      | cons x xs => exact hmv b x (by rw [hE]; simp)
    · rename_i hni
      cases hy : (rootLoop (negaMax E cfg fuel (depth - 1)) E cfg b E.INF
          (E.orderMoves st.orderingInfo b (E.legalMoves b)) ({ st with nodes := 0 })
          (-E.INF) Move.null).2.1.isNull with
      | false => rfl
      | true => exact absurd hy hni

theorem rootMax_keepBM {Board : Type} (E : Env Board) (cfg : SearchConfig Board)
    (fuel : Nat) (hmv : ∀ b m, m ∈ E.legalMoves b → m.isNull = false)
    (depth : Nat) (st : SState) (b : Board) (hne : E.legalMoves b ≠ []) :
    (rootMax E cfg fuel depth st b).bestMove = st.bestMove ∨
    (rootMax E cfg fuel depth st b).bestMove.isNull = false := by
  simp only [rootMax]
  rw [list_isEmpty_false _ hne]
  simp only [Bool.false_eq_true, if_false]
  by_cases hx : (rootLoop (negaMax E cfg fuel (depth - 1)) E cfg b E.INF
      (E.orderMoves st.orderingInfo b (E.legalMoves b)) ({ st with nodes := 0 })
      (-E.INF) Move.null).2.2.stop = true
  · rw [if_pos hx]
    left
    exact (rootLoop_frameBM E cfg fuel (depth - 1) b E.INF
      (E.orderMoves st.orderingInfo b (E.legalMoves b)) ({ st with nodes := 0 })
      (-E.INF) Move.null).1
  · rw [if_neg hx]
    right
    show (if (rootLoop (negaMax E cfg fuel (depth - 1)) E cfg b E.INF
      (E.orderMoves st.orderingInfo b (E.legalMoves b)) ({ st with nodes := 0 })
      (-E.INF) Move.null).2.1.isNull then (E.legalMoves b).headD Move.null
      else (rootLoop (negaMax E cfg fuel (depth - 1)) E cfg b E.INF
        (E.orderMoves st.orderingInfo b (E.legalMoves b)) ({ st with nodes := 0 })
        (-E.INF) Move.null).2.1).isNull = false
    split
    · cases hE : E.legalMoves b with
      | nil => exact absurd hE hne
      | cons x xs => exact hmv b x (by rw [hE]; simp)
    · rename_i hni
      cases hy : (rootLoop (negaMax E cfg fuel (depth - 1)) E cfg b E.INF
          (E.orderMoves st.orderingInfo b (E.legalMoves b)) ({ st with nodes := 0 })
          (-E.INF) Move.null).2.1.isNull with
      | false => rfl
      | true => exact absurd hy hni

theorem iterLoop_keepBM {Board : Type} (E : Env Board) (cfg : SearchConfig Board)
    (fuel : Nat) (hmv : ∀ b m, m ∈ E.legalMoves b → m.isNull = false)
    (hne : E.legalMoves cfg.board ≠ []) :
    ∀ rem currDepth st log, st.bestMove.isNull = false →
      (((iterLoop E cfg fuel rem currDepth st log).1)).bestMove.isNull = false := by
  have h := iterLoop_pres E cfg fuel
    (fun x y => x.bestMove.isNull = false → y.bestMove.isNull = false)
    (fun hxy hyz hx => hyz (hxy hx)) (fun s hx => hx) (fun s hx => hx)
    (fun depth s hx => by
      rcases rootMax_keepBM E cfg fuel hmv depth s cfg.board hne with hcase | hcase
      · rw [hcase]; exact hx
      · exact hcase)
  intro rem currDepth st log hx
  exact h rem currDepth st log hx

/-- Claim C4 (amended): provided the move generator yields only non-null
moves and the ordering picker only reorders them, the null-move sentinel is
never written to the transposition cache — `negaMax` and `rootMax` preserve
a null-free table, and a whole run from the initial state leaves only
non-null best moves in the cache; and the move held by `getBestMove` after
a run is non-null provided the root position has at least one legal move,
at least one iteration was scheduled, and the run was never stopped (a
terminal root, or a run cancelled before the first iteration commits,
leaves the null sentinel as the reported answer). -/
theorem claim_C4 {Board : Type} (E : Env Board) (cfg : SearchConfig Board) (fuel : Nat)
    (hmv : ∀ b m, m ∈ E.legalMoves b → m.isNull = false)
    (hord : ∀ oi b ms m, m ∈ E.orderMoves oi b ms → m ∈ ms) :
    (∀ d st b alpha beta, ttOkay st.tt →
      ttOkay ((negaMax E cfg fuel d st b alpha beta).2).tt) ∧
    (∀ depth st b, ttOkay st.tt → ttOkay (rootMax E cfg fuel depth st b).tt) ∧
    (∀ k e, ((iterDeep E cfg fuel initState).1).tt k = some e →
      e.bestMove.isNull = false) ∧
    (E.legalMoves cfg.board ≠ [] → 1 ≤ cfg.searchDepth.toNat →
      ((iterDeep E cfg fuel initState).1).stop = false →
      (getBestMove ((iterDeep E cfg fuel initState).1)).isNull = false) := by
  refine ⟨negaMax_ttOkay E cfg fuel hmv hord, rootMax_ttOkay E cfg fuel hmv hord, ?_, ?_⟩
  · have hinit : ttOkay initState.tt := by
      intro k e h
      exact Option.noConfusion h
    exact iterLoop_ttOkay E cfg fuel hmv hord cfg.searchDepth.toNat 1 initState [] hinit
  · intro hne hd hstop
    obtain ⟨rem, hrem⟩ : ∃ rem, cfg.searchDepth.toNat = rem + 1 :=
      ⟨cfg.searchDepth.toNat - 1, by omega⟩
    unfold getBestMove
    rw [show iterDeep E cfg fuel initState
      = iterLoop E cfg fuel cfg.searchDepth.toNat 1 initState [] from rfl, hrem] at hstop ⊢
    simp only [iterLoop] at hstop ⊢
    by_cases hs1 : (rootMax E cfg fuel 1 initState cfg.board).stop = true
    · rw [if_pos (show ({ rootMax E cfg fuel 1 initState cfg.board with
        tick := (rootMax E cfg fuel 1 initState cfg.board).tick + 1 } : SState).stop
          = true from hs1)] at hstop
      exact absurd hs1 (by rw [show (rootMax E cfg fuel 1 initState cfg.board).stop
        = false from hstop]; simp)
    · have hs1f : (rootMax E cfg fuel 1 initState cfg.board).stop = false := by
        cases hy : (rootMax E cfg fuel 1 initState cfg.board).stop with
        | false => rfl
        | true => exact absurd hy hs1
      have hbm1 : (rootMax E cfg fuel 1 initState cfg.board).bestMove.isNull = false :=
        rootMax_bestNN E cfg fuel hmv 1 initState cfg.board hne hs1f
      rw [if_neg (show ¬ ({ rootMax E cfg fuel 1 initState cfg.board with
        tick := (rootMax E cfg fuel 1 initState cfg.board).tick + 1 } : SState).stop
          = true from hs1)]
      split
      · exact hbm1
      · exact iterLoop_keepBM E cfg fuel hmv hne rem 2 _ _ hbm1

/-- Claim C4 counterexample: on a terminal root position (no legal moves) a
full run reports the null move as its answer: `getBestMove` returns the
null-move sentinel. -/
theorem claim_C4_cex :
    (getBestMove ((iterDeep EnvA cfgA 5 initState).1)).isNull = true := by
  decide

/-- Claim C4 witness: a depth-1 run over the line game commits a real move
and its root cache entry carries it. -/
theorem claim_C4_wit :
    (getBestMove ((iterDeep EnvLine cfgLine 5 initState).1)).isNull = false := by
  have hmv : ∀ b m, m ∈ EnvLine.legalMoves b → m.isNull = false := by
    intro b m h
    by_cases hb : b < 4
    · simp [EnvLine, hb] at h
      rw [h]
      rfl
    · simp [EnvLine, hb] at h
  exact (claim_C4 EnvLine cfgLine 5 hmv (fun _ _ _ _ h => h)).2.2.2 (by decide) (by decide)
    (by decide)

/-! ## Cache writes touch only keys of reachable positions -/

theorem ttSet_ne (tt : Nat → Option TTEntry) (k : Nat) (e : TTEntry) (k2 : Nat)
    (h : ¬ k2 = k) : ttSet tt k e k2 = tt k2 := by
  unfold ttSet
  rw [if_neg h]

theorem negaLoop_keys {Board : Type} (recurse : SState → Board → Int → Int → Int × SState)
    (E : Env Board) (cfg : SearchConfig Board) (b : Board) (d : Nat) (legal : List Move)
    (alphaOrig : Int)
    (hRec : ∀ s c a bt k, ((recurse s c a bt).2).tt k ≠ s.tt k →
      ∃ x, Reach E c x ∧ k = E.zKey x) :
    ∀ ms st alpha beta bm k,
      ((negaLoop recurse E cfg b d legal alphaOrig ms st alpha beta bm).2).tt k ≠ st.tt k →
      ∃ x, Reach E b x ∧ k = E.zKey x := by
  intro ms
  induction ms with
  | nil =>
    intro st alpha beta bm k hk
    simp only [negaLoop] at hk
    by_cases hkey : k = E.zKey b
    · exact ⟨b, Relation.ReflTransGen.refl, hkey⟩
    · exact absurd (ttSet_ne st.tt (E.zKey b) _ k hkey) hk
  | cons m ms ih =>
    intro st alpha beta bm k hk
    have hstep : ∀ x, Reach E (E.doMove b m) x → Reach E b x := by
      intro x hx
      exact Relation.ReflTransGen.trans (Relation.ReflTransGen.single ⟨m, rfl⟩) hx
    simp only [negaLoop] at hk
    generalize hq : recurse ({ st with orderingInfo := st.orderingInfo.incrementPly })
      (E.doMove b m) (-beta) (-alpha) = r at hk
    have hr : ∀ k2, r.2.tt k2 ≠ st.tt k2 → ∃ x, Reach E b x ∧ k2 = E.zKey x := by
      intro k2 hk2
      obtain ⟨x, hx1, hx2⟩ := hRec ({ st with orderingInfo := st.orderingInfo.incrementPly })
        (E.doMove b m) (-beta) (-alpha) k2 (by rw [hq]; exact hk2)
      exact ⟨x, hstep x hx1, hx2⟩
    split at hk
    · by_cases hkey : k = E.zKey b
      · exact ⟨b, Relation.ReflTransGen.refl, hkey⟩
      · refine hr k ?_
        intro hx
        exact hk ((ttSet_ne r.2.tt (E.zKey b) _ k hkey).trans hx)
    · by_cases heq : ({ r.2 with orderingInfo := r.2.orderingInfo.deincrementPly }
          : SState).tt k = st.tt k
      · rename_i hc1
        split at hk
        · exact ih _ _ _ _ k (fun hz => hk (hz.trans heq))
        · exact ih _ _ _ _ k (fun hz => hk (hz.trans heq))
      · exact hr k heq

theorem negaMax_keys {Board : Type} (E : Env Board) (cfg : SearchConfig Board) (fuel : Nat) :
    ∀ d st b alpha beta k,
      ((negaMax E cfg fuel d st b alpha beta).2).tt k ≠ st.tt k →
      ∃ x, Reach E b x ∧ k = E.zKey x := by
  have hmain : ∀ (recurse : SState → Board → Int → Int → Int × SState),
      (∀ s c a bt k, ((recurse s c a bt).2).tt k ≠ s.tt k →
        ∃ x, Reach E c x ∧ k = E.zKey x) →
      ∀ d st b alphaOrig alpha beta k,
        ((negaMaxMain recurse E cfg fuel d st b alphaOrig alpha beta).2).tt k ≠ st.tt k →
        ∃ x, Reach E b x ∧ k = E.zKey x := by
    intro recurse hRec d st b alphaOrig alpha beta k hk
    simp only [negaMaxMain] at hk
    split at hk
    · exact absurd rfl hk
    · split at hk
      · exact absurd (congrFun (qSearch_frame E cfg fuel st b alpha beta).1 k) hk
      · exact negaLoop_keys recurse E cfg b d (E.legalMoves b) alphaOrig hRec
          _ st alpha beta Move.null k hk
  have hentry : ∀ (recurse : SState → Board → Int → Int → Int × SState),
      (∀ s c a bt k, ((recurse s c a bt).2).tt k ≠ s.tt k →
        ∃ x, Reach E c x ∧ k = E.zKey x) →
      ∀ d st b alpha beta k,
        ((negaMaxEntry recurse E cfg fuel d st b alpha beta).2).tt k ≠ st.tt k →
        ∃ x, Reach E b x ∧ k = E.zKey x := by
    intro recurse hRec d st b alpha beta k hk
    have hc : ((checkLimits E cfg st).2).tt k = st.tt k :=
      congrFun (checkLimits_frame E cfg st).1 k
    simp only [negaMaxEntry] at hk
    split at hk
    · exact absurd rfl hk
    · split at hk
      · exact absurd hc hk
      · simp only [negaMaxProbe] at hk
        split at hk
        · obtain ⟨x, h1, h2⟩ := hmain recurse hRec d _ b alpha alpha beta k
            (fun hz => hk (hz.trans hc))
          exact ⟨x, h1, h2⟩
        · split at hk
          · split at hk
            · exact absurd hc hk
            · split at hk
              · exact absurd hc hk
              · exact hmain recurse hRec d _ b alpha alpha _ k (fun hz => hk (hz.trans hc))
            · split at hk
              · exact absurd hc hk
              · exact hmain recurse hRec d _ b alpha _ beta k (fun hz => hk (hz.trans hc))
          · exact hmain recurse hRec d _ b alpha alpha beta k (fun hz => hk (hz.trans hc))
  intro d
  induction d with
  | zero =>
    intro st b alpha beta k hk
    exact hentry (fun s _ _ _ => (0, s)) (fun s _ _ _ k2 hk2 => absurd rfl hk2)
      0 st b alpha beta k hk
  | succ d ih =>
    intro st b alpha beta k hk
    exact hentry (negaMax E cfg fuel d) (fun s c a bt k2 hk2 => ih s c a bt k2 hk2)
      (d + 1) st b alpha beta k hk

theorem rootLoop_keys {Board : Type} (E : Env Board) (cfg : SearchConfig Board)
    (fuel subd : Nat) (b : Board) (beta : Int) :
    ∀ ms st alpha bm k,
      ((rootLoop (negaMax E cfg fuel subd) E cfg b beta ms st alpha bm).2.2).tt k ≠ st.tt k →
      ∃ m x, Reach E (E.doMove b m) x ∧ k = E.zKey x := by
  intro ms
  induction ms with
  | nil => intro st alpha bm k hk; exact absurd rfl hk
  | cons m ms ih =>
    intro st alpha bm k hk
    simp only [rootLoop] at hk
    generalize hq : negaMax E cfg fuel subd
      ({ st with orderingInfo := st.orderingInfo.incrementPly })
      (E.doMove b m) (-beta) (-alpha) = r at hk
    have hr : ∀ k2, r.2.tt k2 ≠ st.tt k2 → ∃ m2 x, Reach E (E.doMove b m2) x ∧ k2 = E.zKey x := by
      intro k2 hk2
      obtain ⟨x, h1, h2⟩ := negaMax_keys E cfg fuel subd
        ({ st with orderingInfo := st.orderingInfo.incrementPly })
        (E.doMove b m) (-beta) (-alpha) k2 (by rw [hq]; exact hk2)
      exact ⟨m, x, h1, h2⟩
    have hcl : ∀ k2, ((checkLimits E cfg
        ({ r.2 with orderingInfo := r.2.orderingInfo.deincrementPly })).2).tt k2
        = r.2.tt k2 :=
      fun k2 => congrFun (checkLimits_frame E cfg _).1 k2
    by_cases heq : r.2.tt k = st.tt k
    · split at hk
      · exact absurd heq hk
      · split at hk
        · exact absurd ((hcl k).trans heq) hk
        · split at hk
          · split at hk
            · exact absurd ((hcl k).trans heq) hk
            · obtain ⟨m2, x, h1, h2⟩ := ih _ _ _ k
                (fun hz => hk (hz.trans ((hcl k).trans heq)))
              exact ⟨m2, x, h1, h2⟩
          · obtain ⟨m2, x, h1, h2⟩ := ih _ _ _ k
              (fun hz => hk (hz.trans ((hcl k).trans heq)))
            exact ⟨m2, x, h1, h2⟩
    · exact hr k heq

/-- Claim C5: when the stop flag becomes set during a root-search iteration
(the iteration starts unstopped and `rootMax` returns stopped), the
iteration's partial result is not committed: the run's best move, best
score, and the root's transposition-cache entry are exactly as before the
iteration (given that no position reachable below the root shares the
root's cache key), and the iterative-deepening loop returns at once without
emitting a progress line for the abandoned iteration. -/
theorem claim_C5 {Board : Type} (E : Env Board) (cfg : SearchConfig Board) (fuel : Nat)
    (hkey : ∀ m x, Reach E (E.doMove cfg.board m) x → E.zKey x ≠ E.zKey cfg.board) :
    (∀ depth st, st.stop = false →
      (rootMax E cfg fuel depth st cfg.board).stop = true →
      (rootMax E cfg fuel depth st cfg.board).bestMove = st.bestMove ∧
      (rootMax E cfg fuel depth st cfg.board).bestScore = st.bestScore ∧
      (rootMax E cfg fuel depth st cfg.board).tt (E.zKey cfg.board)
        = st.tt (E.zKey cfg.board)) ∧
    (∀ rem currDepth st log,
      (rootMax E cfg fuel currDepth st cfg.board).stop = true →
      iterLoop E cfg fuel (rem + 1) currDepth st log
        = ({ rootMax E cfg fuel currDepth st cfg.board with
            tick := (rootMax E cfg fuel currDepth st cfg.board).tick + 1 }, log)) := by
  constructor
  · intro depth st hs0 hstop
    simp only [rootMax] at hstop ⊢
    by_cases hemp : (E.legalMoves cfg.board).isEmpty = true
    · rw [if_pos hemp] at hstop
      rw [show ({ st with nodes := 0, bestMove := Move.null, bestScore := -E.INF }
        : SState).stop = st.stop from rfl, hs0] at hstop
      exact absurd hstop (by simp)
    · rw [if_neg hemp] at hstop ⊢
      by_cases hx : (rootLoop (negaMax E cfg fuel (depth - 1)) E cfg cfg.board E.INF
          (E.orderMoves st.orderingInfo cfg.board (E.legalMoves cfg.board))
          ({ st with nodes := 0 }) (-E.INF) Move.null).2.2.stop = true
      · rw [if_pos hx]
        refine ⟨?_, ?_, ?_⟩
        · exact (rootLoop_frameBM E cfg fuel (depth - 1) cfg.board E.INF
            (E.orderMoves st.orderingInfo cfg.board (E.legalMoves cfg.board))
            ({ st with nodes := 0 }) (-E.INF) Move.null).1
        · exact (rootLoop_frameBM E cfg fuel (depth - 1) cfg.board E.INF
            (E.orderMoves st.orderingInfo cfg.board (E.legalMoves cfg.board))
            ({ st with nodes := 0 }) (-E.INF) Move.null).2
        · by_contra hne2
          obtain ⟨m, x, h1, h2⟩ := rootLoop_keys E cfg fuel (depth - 1) cfg.board E.INF
            (E.orderMoves st.orderingInfo cfg.board (E.legalMoves cfg.board))
            ({ st with nodes := 0 }) (-E.INF) Move.null (E.zKey cfg.board) hne2
          exact hkey m x h1 h2.symm
      · rw [if_neg hx] at hstop
        exact absurd hstop hx
  · intro rem currDepth st log hstop
    simp only [iterLoop]
    rw [if_pos (show ({ rootMax E cfg fuel currDepth st cfg.board with
      tick := (rootMax E cfg fuel currDepth st cfg.board).tick + 1 } : SState).stop
        = true from hstop)]

theorem envStop_reach_le (x y : Nat) (h : Reach EnvStop x y) : x ≤ y := by
  induction h with
  | refl => exact le_refl x
  | tail h1 h2 ih =>
    obtain ⟨m, rfl⟩ := h2
    exact Nat.le_succ_of_le ih

/-- Claim C5 witness: over the line game with an exhausted 50 ms budget
(the clock reads 100 ms), the depth-1 iteration is stopped; the best move,
best score and root cache entry are untouched, and the deepening loop
returns immediately with an empty progress log. -/
theorem claim_C5_wit :
    (rootMax EnvStop cfgStop 5 1 initState cfgStop.board).bestMove = initState.bestMove ∧
    (rootMax EnvStop cfgStop 5 1 initState cfgStop.board).bestScore = initState.bestScore ∧
    (rootMax EnvStop cfgStop 5 1 initState cfgStop.board).tt (EnvStop.zKey cfgStop.board)
      = initState.tt (EnvStop.zKey cfgStop.board) ∧
    iterLoop EnvStop cfgStop 5 1 1 initState []
      = ({ rootMax EnvStop cfgStop 5 1 initState cfgStop.board with
          tick := (rootMax EnvStop cfgStop 5 1 initState cfgStop.board).tick + 1 }, []) := by
  have hkey : ∀ m x, Reach EnvStop (EnvStop.doMove cfgStop.board m) x →
      EnvStop.zKey x ≠ EnvStop.zKey cfgStop.board := by
    intro m x h
    have h2 : 1 ≤ x := envStop_reach_le _ _ h
    show x ≠ 0
    omega
  have hstop : (rootMax EnvStop cfgStop 5 1 initState cfgStop.board).stop = true := by decide
  obtain ⟨a1, a2, a3⟩ := (claim_C5 EnvStop cfgStop 5 hkey).1 1 initState rfl hstop
  exact ⟨a1, a2, a3, (claim_C5 EnvStop cfgStop 5 hkey).2 0 1 initState [] hstop⟩

/-! ## Node budget: overshoot bounded by one polling interval -/

theorem checkLimits_cases {Board : Type} (E : Env Board) (cfg : SearchConfig Board)
    (s : SState) :
    (2 ≤ s.limitCheckCount ∧
      checkLimits E cfg s = (false, { s with limitCheckCount := s.limitCheckCount - 1 })) ∨
    (s.limitCheckCount ≤ 1 ∧ ∃ flag,
      checkLimits E cfg s = (flag, { s with limitCheckCount := 4096, tick := s.tick + 1 }) ∧
      (flag = false → cfg.limits.nodes = 0 ∨ s.nodes < cfg.limits.nodes)) := by
  unfold checkLimits
  by_cases h : (0 : Int) < s.limitCheckCount - 1
  · left
    rw [if_pos h]
    exact ⟨by omega, rfl⟩
  · right
    refine ⟨by omega, ?_⟩
    rw [if_neg h]
    dsimp only
    split
    · exact ⟨true, rfl, fun hx => absurd hx (by simp)⟩
    · split
      · exact ⟨true, rfl, fun hx => absurd hx (by simp)⟩
      · rename_i hcond hcond2
        refine ⟨false, rfl, fun _ => ?_⟩
        by_cases hz : cfg.limits.nodes = 0
        · exact Or.inl hz
        · right
          by_cases hn : cfg.limits.nodes ≤ s.nodes
          · exact absurd ⟨hz, hn⟩ hcond
          · omega

theorem Jinv_stopSet (cap : Nat) (s : SState) (hx : Jinv cap s) :
    Jinv cap ({ s with stop := true }) := by
  obtain ⟨h1, h2, h3, h4⟩ := hx
  simp only [Jinv]
  refine ⟨h1, ?_, h3, h4⟩
  intro h
  exact absurd h (by simp)

theorem Jinv_checkTrue {Board : Type} (E : Env Board) (cfg : SearchConfig Board) (s : SState)
    (hx : Jinv cfg.limits.nodes s) :
    Jinv cfg.limits.nodes ({ (checkLimits E cfg s).2 with stop := true }) := by
  obtain ⟨h1, h2, h3, h4⟩ := hx
  rcases checkLimits_cases E cfg s with ⟨hc, heq⟩ | ⟨hc, flag, heq, himp⟩
  · rw [heq]
    simp only [Jinv]
    refine ⟨h1, ?_, by omega, by omega⟩
    intro h
    exact absurd h (by simp)
  · rw [heq]
    simp only [Jinv]
    refine ⟨h1, ?_, by omega, by omega⟩
    intro h
    exact absurd h (by simp)

theorem Jinv_checkFalse {Board : Type} (E : Env Board) (cfg : SearchConfig Board) (s : SState)
    (hcap : cfg.limits.nodes ≠ 0) (hs : s.stop = false)
    (hf : (checkLimits E cfg s).1 = false) (hx : Jinv cfg.limits.nodes s) :
    Jinv cfg.limits.nodes ((checkLimits E cfg s).2) := by
  obtain ⟨h1, h2, h3, h4⟩ := hx
  have h2b := h2 hs
  rcases checkLimits_cases E cfg s with ⟨hc, heq⟩ | ⟨hc, flag, heq, himp⟩
  · rw [heq]
    simp only [Jinv]
    refine ⟨h1, ?_, by omega, by omega⟩
    intro _
    omega
  · rw [heq] at hf ⊢
    have hlt : s.nodes < cfg.limits.nodes := by
      rcases himp hf with hz | hlt
      · exact absurd hz hcap
      · exact hlt
    simp only [Jinv]
    refine ⟨by omega, ?_, by omega, by omega⟩
    intro _
    omega

theorem Jinv_nodesInc {Board : Type} (E : Env Board) (cfg : SearchConfig Board) (s : SState)
    (hcap : cfg.limits.nodes ≠ 0) (hs : s.stop = false)
    (hf : (checkLimits E cfg s).1 = false) (hx : Jinv cfg.limits.nodes s) :
    Jinv cfg.limits.nodes
      ({ (checkLimits E cfg s).2 with nodes := (checkLimits E cfg s).2.nodes + 1 }) := by
  obtain ⟨h1, h2, h3, h4⟩ := hx
  have h2b := h2 hs
  rcases checkLimits_cases E cfg s with ⟨hc, heq⟩ | ⟨hc, flag, heq, himp⟩
  · rw [heq]
    simp only [Jinv]
    refine ⟨by omega, ?_, by omega, by omega⟩
    intro _
    omega
  · rw [heq] at hf ⊢
    have hlt : s.nodes < cfg.limits.nodes := by
      rcases himp hf with hz | hlt
      · exact absurd hz hcap
      · exact hlt
    simp only [Jinv]
    refine ⟨by omega, ?_, by omega, by omega⟩
    intro _
    omega

theorem rootMax_J {Board : Type} (E : Env Board) (cfg : SearchConfig Board) (fuel : Nat)
    (hcap : cfg.limits.nodes ≠ 0) :
    ∀ depth st b, Jinv cfg.limits.nodes st →
      Jinv cfg.limits.nodes (rootMax E cfg fuel depth st b) := by
  have h := rootMax_pres E cfg fuel
    (fun x y => Jinv cfg.limits.nodes x → Jinv cfg.limits.nodes y)
    (fun hxy hyz hx => hyz (hxy hx)) (fun s hx => hx)
    (fun s oi hx => hx) (fun s f hx => hx) (fun s oi f hx => hx)
    (fun s hx => Jinv_stopSet _ s hx)
    (fun s hs hf hx => Jinv_checkTrue E cfg s hx)
    (fun s hs hf hx => Jinv_checkFalse E cfg s hcap hs hf hx)
    (fun s hs hf hx => Jinv_nodesInc E cfg s hcap hs hf hx)
    (fun s hx => by
      obtain ⟨h1, h2, h3, h4⟩ := hx
      simp only [Jinv]
      refine ⟨by omega, ?_, h3, h4⟩
      intro _
      omega)
    (fun s hx => by
      obtain ⟨h1, h2, h3, h4⟩ := hx
      simp only [Jinv]
      refine ⟨by omega, ?_, h3, h4⟩
      intro _
      omega)
    (fun s f bm sc hx => hx)
  exact h

theorem claim_C8_core {Board : Type} (E : Env Board) (cfg : SearchConfig Board) (fuel : Nat)
    (hcap : cfg.limits.nodes ≠ 0) :
    ∀ rem currDepth st log, Jinv cfg.limits.nodes st →
      Jinv cfg.limits.nodes ((iterLoop E cfg fuel rem currDepth st log).1) := by
  have h := iterLoop_pres E cfg fuel
    (fun x y => Jinv cfg.limits.nodes x → Jinv cfg.limits.nodes y)
    (fun hxy hyz hx => hyz (hxy hx)) (fun s hx => hx) (fun s hx => hx)
    (fun depth s hx => rootMax_J E cfg fuel hcap depth s cfg.board hx)
  exact h

/-- Claim C8: with a node cap configured, a full search run from the
initial state overshoots the cap by at most one polling interval: the final
node counter is at most `cap + 4096` (the real cap check runs only every
4096 polls, each of which can count at most one quiescence node, and once
it fires the stop flag freezes the counter). -/
theorem claim_C8 {Board : Type} (E : Env Board) (cfg : SearchConfig Board) (fuel : Nat)
    (cap : Nat) (h1 : cfg.limits.nodes = cap) (h2 : cap ≠ 0) :
    ((iterDeep E cfg fuel initState).1).nodes ≤ cap + 4096 := by
  subst h1
  have hinit : Jinv cfg.limits.nodes initState := by
    simp only [Jinv, initState]
    refine ⟨by omega, ?_, by omega, by omega⟩
    intro _
    omega
  exact (claim_C8_core E cfg fuel h2 cfg.searchDepth.toNat 1 initState [] hinit).1

/-- Claim C8 witness: a depth-2 run over the line game with a node cap of 1
finishes with at most 4097 counted nodes. -/
theorem claim_C8_wit :
    ((iterDeep EnvLine cfgN 5 initState).1).nodes ≤ 1 + 4096 :=
  claim_C8 EnvLine cfgN 5 1 (by decide) (by decide)
